import Mathlib

/-!
# dockervideoconverter: argument derivation and safe output commit

A shallow embedding of `main.go` (`getFFmpegArgs`, `processFile`, the job loop of `convert`)
together with the Go standard-library functions these call (`strings.TrimSuffix`,
`strconv.Atoi`, `fmt.Sprintf("%d")`, `filepath.Clean/Join/Dir/Base/Ext` on a Unix target
with 64-bit `int`), followed by theorems about them.

Go strings are modelled by `String`; the library functions work on the character list
`String.data`.  Every byte-level test the library makes is against an ASCII byte
(`/`, `.`, `+`, `-`, a digit), so testing characters instead of bytes gives the same result;
the one place where the byte length matters (`len(s)` in `strconv.Atoi`) uses the UTF-8 length.
-/

namespace VideoConverter

/-! ## Go standard library: `strings`, `strconv`, `fmt` -/

/-- Go `strings.TrimSuffix(s, suffix)` on character lists: drop `suffix` from the end of `s`
when `s` ends with it, otherwise return `s` unchanged. -/
def trimSuffixChars (s suffix : List Char) : List Char :=
  if suffix.isSuffixOf s then s.take (s.length - suffix.length) else s

/-- Go `strings.TrimSuffix`. -/
def trimSuffix (s suffix : String) : String :=
  ⟨trimSuffixChars s.data suffix.data⟩

/-- The error kinds of `strconv.NumError` (`ErrSyntax` is `invalid`, `ErrRange` is `range`). -/
inductive NumError where
  | invalid
  | range
  deriving DecidableEq, Repr

/-- The test `'0' <= c && c <= '9'`. -/
def isDigit (c : Char) : Bool :=
  decide (48 ≤ c.toNat) && decide (c.toNat ≤ 57)

/-- The digit value `c - '0'`. -/
def digitVal (c : Char) : Nat :=
  c.toNat - 48

/-- The constant `maxUint64`. -/
def maxUint64 : Nat := 2 ^ 64 - 1

/-- The loop of `strconv.ParseUint(s, 10, 64)` with accumulator `n`: a character that is
not a decimal digit ends the parse with `ErrSyntax` and value 0; an overflow ends it at once
with `ErrRange` and value `maxUint64`, before the remaining characters are looked at. -/
def parseUintLoop : List Char → Nat → Nat × Option NumError
  | [], n => (n, none)
  | c :: cs, n =>
    if isDigit c then
      if n ≥ maxUint64 / 10 + 1 then (maxUint64, some NumError.range)
      else
        let n1 := n * 10 + digitVal c
        if n1 > maxUint64 then (maxUint64, some NumError.range)
        else parseUintLoop cs n1
    else (0, some NumError.invalid)

/-- Go `strconv.ParseUint(s, 10, 64)`. -/
def parseUint (s : List Char) : Nat × Option NumError :=
  if s = [] then (0, some NumError.invalid) else parseUintLoop s 0

/-- A leading sign byte: `s[0] == '+' || s[0] == '-'`. -/
def hasSign (s : List Char) : Bool :=
  decide (s.head? = some '+') || decide (s.head? = some '-')

/-- The string after its leading sign byte, if it has one: `s = s[1:]`. -/
def stripSign (s : List Char) : List Char :=
  if hasSign s then s.tail else s

/-- Go `strconv.ParseInt(s, 10, 0)` with `IntSize = 64`. -/
def parseInt (s : List Char) : Int × Option NumError :=
  if s = [] then (0, some NumError.invalid)
  else
    let neg := s.head? = some '-'
    let r := parseUint (stripSign s)
    if r.2 = some NumError.invalid then (0, some NumError.invalid)
    else if ¬ neg ∧ r.1 ≥ 2 ^ 63 then (2 ^ 63 - 1, some NumError.range)
    else if neg ∧ r.1 > 2 ^ 63 then (-(2 ^ 63), some NumError.range)
    else (if neg then -(r.1 : Int) else (r.1 : Int), none)

/-- The digit loop of the fast path of `strconv.Atoi`. -/
def atoiFastLoop : List Char → Nat → Option Nat
  | [], n => some n
  | c :: cs, n => if isDigit c then atoiFastLoop cs (n * 10 + digitVal c) else none

/-- Go `len(s)`: the number of bytes of the UTF-8 encoding. -/
def byteLen (s : List Char) : Nat :=
  (s.map Char.utf8Size).sum

/-- Go `strconv.Atoi(s)` with a 64-bit `int`: the value and the error.  Strings of 1 to 18
bytes take the fast path, all others go through `ParseInt`. -/
def atoiChars (s : List Char) : Int × Option NumError :=
  if 0 < byteLen s ∧ byteLen s < 19 then
    if hasSign s ∧ (stripSign s).length < 1 then (0, some NumError.invalid)
    else
      match atoiFastLoop (stripSign s) 0 with
      | none => (0, some NumError.invalid)
      | some n => (if s.head? = some '-' then -(n : Int) else (n : Int), none)
  else parseInt s

/-- Go `strconv.Atoi`. -/
def atoi (s : String) : Int × Option NumError :=
  atoiChars s.data

/-- An optionally signed, non-empty run of decimal digits. -/
def isDecimalInteger (s : List Char) : Bool :=
  !(stripSign s).isEmpty && (stripSign s).all isDigit

/-- The value of the run of decimal digits that follows the optional sign. -/
def leadingValue (s : List Char) : Nat :=
  ((stripSign s).takeWhile isDigit).foldl (fun n c => n * 10 + digitVal c) 0

/-- Two's-complement wrap-around of a mathematical integer into Go's 64-bit `int`. -/
def wrapInt64 (x : Int) : Int :=
  (x + 2 ^ 63) % 2 ^ 64 - 2 ^ 63

/-- Go `fmt.Sprintf("%d", x)`. -/
def formatInt (x : Int) : String :=
  if x < 0 then "-" ++ Nat.repr x.natAbs else Nat.repr x.natAbs

/-! ## Go standard library: `path/filepath` on Unix -/

/-- Go `os.IsPathSeparator` on Unix. -/
def isPathSeparator (c : Char) : Bool :=
  c == '/'

/-- The backtracking loop of `Clean` for a `..` element, on the write index `w`:
`for out.w > dotdot && !os.IsPathSeparator(out.index(out.w)) { out.w-- }`. -/
def backtrackLoop (buf : List Char) (dotdot : Nat) : Nat → Nat
  | 0 => 0
  | w + 1 =>
    if dotdot < w + 1 ∧ ¬ isPathSeparator (buf.getD (w + 1) '/') then backtrackLoop buf dotdot w
    else w + 1

/-- The main loop `for r < n` of `filepath.Clean`.  `path` is what is left to read (from index
`r`), `out` the bytes written so far (`out.w` is its length), `dotdot` the index where `..`
must stop.  Every iteration reads at least one byte, so `fuel` bounds the iterations. -/
def cleanLoop (rooted : Bool) : Nat → List Char → List Char → Nat → List Char
  | 0, _, out, _ => out
  | _ + 1, [], out, _ => out
  | fuel + 1, c :: cs, out, dotdot =>
    if isPathSeparator c then
      cleanLoop rooted fuel cs out dotdot
    else if c = '.' ∧ (cs = [] ∨ (cs.head?.map isPathSeparator) = some true) then
      cleanLoop rooted fuel cs out dotdot
    else if c = '.' ∧ cs.head? = some '.'
        ∧ (cs.tail = [] ∨ (cs.tail.head?.map isPathSeparator) = some true) then
      if out.length > dotdot then
        cleanLoop rooted fuel cs.tail
          (out.take (backtrackLoop out dotdot (out.length - 1))) dotdot
      else if ¬ rooted then
        let out1 := if out.length > 0 then out ++ ['/'] else out
        let out2 := out1 ++ ['.', '.']
        cleanLoop rooted fuel cs.tail out2 out2.length
      else cleanLoop rooted fuel cs.tail out dotdot
    else
      let out1 :=
        if (rooted ∧ out.length ≠ 1) ∨ (¬ rooted ∧ out.length ≠ 0) then out ++ ['/'] else out
      cleanLoop rooted fuel ((c :: cs).dropWhile (fun x => !isPathSeparator x))
        (out1 ++ (c :: cs).takeWhile (fun x => !isPathSeparator x)) dotdot

/-- Go `filepath.Clean` on Unix (no volume name). -/
def cleanChars (path : List Char) : List Char :=
  if path = [] then ['.']
  else
    let rooted := (path.head?.map isPathSeparator) = some true
    let out :=
      if rooted then cleanLoop true path.length path.tail ['/'] 1
      else cleanLoop false path.length path [] 0
    if out.length = 0 then ['.'] else out

/-- Go `filepath.Join`: the elements from the first non-empty one on, joined by `/` and
cleaned; the empty string when every element is empty. -/
def joinChars : List (List Char) → List Char
  | [] => []
  | e :: es => if e ≠ [] then cleanChars (['/'].intercalate (e :: es)) else joinChars es

/-- Go `filepath.Base`. -/
def baseChars (path : List Char) : List Char :=
  if path = [] then ['.']
  else
    let stripped := (path.reverse.dropWhile isPathSeparator).reverse
    let last := (stripped.reverse.takeWhile (fun x => !isPathSeparator x)).reverse
    if last = [] then ['/'] else last

/-- Go `filepath.Dir` on Unix: `Clean` of the path up to and including its last separator. -/
def dirChars (path : List Char) : List Char :=
  cleanChars (path.reverse.dropWhile (fun x => !isPathSeparator x)).reverse

/-- The loop of `filepath.Ext`, reading the path from its end; `acc` is `path[i+1:]`. -/
def extLoop : List Char → List Char → List Char
  | [], _ => []
  | c :: cs, acc =>
    if isPathSeparator c then []
    else if c = '.' then c :: acc
    else extLoop cs (c :: acc)

/-- Go `filepath.Ext`. -/
def extChars (path : List Char) : List Char :=
  extLoop path.reverse []

/-- Go `filepath.Clean`. -/
def filepathClean (path : String) : String := ⟨cleanChars path.data⟩

/-- Go `filepath.Join`. -/
def filepathJoin (elem : List String) : String := ⟨joinChars (elem.map String.data)⟩

/-- Go `filepath.Base`. -/
def filepathBase (path : String) : String := ⟨baseChars path.data⟩

/-- Go `filepath.Dir`. -/
def filepathDir (path : String) : String := ⟨dirChars path.data⟩

/-- Go `filepath.Ext`. -/
def filepathExt (path : String) : String := ⟨extChars path.data⟩

/-! ## `main.go`: the job and the argument translator -/

/-- The struct `ConversionJob`. -/
structure ConversionJob where
  inputFile : String
  outputFile : String
  quality : String
  resolution : String
  compressionLevel : String
  targetSize : String
  videoBitrate : String
  audioBitrate : String
  deriving DecidableEq, Repr

/-- The arguments that the target-size block of `getFFmpegArgs` appends. -/
def targetSizeArgs (targetSize : String) : List String :=
  if targetSize ≠ "" then
    let targetMB := trimSuffix targetSize "M"
    let targetBits := (atoi targetMB).1
    let bitrate := Int.tdiv (wrapInt64 (targetBits * 8 * 1024 * 1024)) 600
    ["-maxrate", formatInt (Int.tdiv bitrate 1000) ++ "k"]
      ++ ["-bufsize", formatInt (Int.tdiv bitrate 2000) ++ "k"]
  else []

/-- The function `getFFmpegArgs`: each block of the source appends to `args` in turn. -/
def getFFmpegArgs (job : ConversionJob) : List String :=
  let args := ["-i", job.inputFile]
  let args :=
    if job.compressionLevel = "light" then
      args ++ ["-c:v", "libx264", "-crf", "23", "-preset", "medium"] ++ ["-c:a", "aac", "-b:a", "128k"]
    else if job.compressionLevel = "medium" then
      args ++ ["-c:v", "libx264", "-crf", "28", "-preset", "medium"] ++ ["-c:a", "aac", "-b:a", "96k"]
    else if job.compressionLevel = "heavy" then
      args ++ ["-c:v", "libx264", "-crf", "32", "-preset", "medium"] ++ ["-c:a", "aac", "-b:a", "64k"]
    else args
  let args :=
    if job.compressionLevel = "" then
      if job.quality = "low" then args ++ ["-crf", "28"]
      else if job.quality = "high" then args ++ ["-crf", "18"]
      else args ++ ["-crf", "23"]
    else args
  let args := if job.videoBitrate ≠ "" then args ++ ["-b:v", job.videoBitrate] else args
  let args := if job.audioBitrate ≠ "" then args ++ ["-b:a", job.audioBitrate] else args
  let args := args ++ targetSizeArgs job.targetSize
  let args := if job.resolution ≠ "" then args ++ ["-vf", "scale=" ++ job.resolution] else args
  args ++ ["-y", job.outputFile]

/-! ## `main.go`: the job runner and the job builder -/

/-- The filesystem: the content of the file at each path, `none` where there is no file. -/
abbrev FileSystem := String → Option String

/-- The filesystem with the file at `p` set to `c` (`none` removes it). -/
def setFile (fs : FileSystem) (p : String) (c : Option String) : FileSystem :=
  fun q => if q = p then c else fs q

/-- What the program cannot decide itself: the outcome of the external engine and the
operating system refusing a removal or the rename. -/
structure Env where
  /-- `cmd.CombinedOutput()` returned a nil error (the engine exited zero). -/
  engineExitZero : Bool
  /-- The file the engine leaves at its output path, `none` when it leaves no file there. -/
  engineLeaves : Option String
  /-- The paths at which `os.Remove` fails although a file is there. -/
  removeFails : String → Bool
  /-- `os.Rename` fails although the source file is there. -/
  renameFails : Bool

/-- The external engine `ffmpeg args...`: it writes its output file, named by its last argument,
and nothing else.  Returns whether it exited zero, and the filesystem it leaves. -/
def runEngine (env : Env) (args : List String) (fs : FileSystem) : Bool × FileSystem :=
  match args.getLast? with
  | some out => (env.engineExitZero, setFile fs out env.engineLeaves)
  | none => (env.engineExitZero, fs)

/-- Go `os.Remove`: whether it succeeded, and the filesystem after it.  It fails, changing
nothing, when there is no file or when the operating system refuses. -/
def osRemove (env : Env) (fs : FileSystem) (p : String) : Bool × FileSystem :=
  if (fs p).isNone ∨ env.removeFails p then (false, fs) else (true, setFile fs p none)

/-- Go `os.Rename`: whether it succeeded, and the filesystem after it.  On success the
destination holds the source's content, replacing what was there, and the source is gone. -/
def osRename (env : Env) (fs : FileSystem) (src dst : String) : Bool × FileSystem :=
  if (fs src).isNone ∨ env.renameFails then (false, fs)
  else (true, setFile (setFile fs src none) dst (fs src))

/-- The temporary path of `processFile`: `filepath.Join(dir, "tmp_"+filename)`. -/
def tmpFileOf (outputFile : String) : String :=
  let dir := filepathDir outputFile
  let filename := filepathBase outputFile
  filepathJoin [dir, "tmp_" ++ filename]

/-- The function `processFile` (printing and timing left out): whether the job succeeded, and
the filesystem it leaves. -/
def processFile (env : Env) (job : ConversionJob) (fs : FileSystem) : Bool × FileSystem :=
  let tmpFile := tmpFileOf job.outputFile
  let args := getFFmpegArgs job
  let args := args.set (args.length - 1) tmpFile
  let run := runEngine env args fs
  if ¬ run.1 then
    (false, (osRemove env run.2 tmpFile).2)
  else
    let statOk := (run.2 job.outputFile).isSome
    let rm := if statOk then osRemove env run.2 job.outputFile else (true, run.2)
    if ¬ rm.1 then
      (false, (osRemove env rm.2 tmpFile).2)
    else
      let mv := osRename env rm.2 tmpFile job.outputFile
      if ¬ mv.1 then (false, (osRemove env mv.2 tmpFile).2)
      else (true, mv.2)

/-- The command-line options, the package-level variables of `main.go`. -/
structure Options where
  inputFiles : List String
  outputFormat : String
  quality : String
  resolution : String
  concurrent : Bool
  outputDir : String
  compressionLevel : String
  targetSize : String
  videoBitrate : String
  audioBitrate : String

/-- The loop body of `convert`: `baseFileName`, the input's base name without its extension. -/
def baseFileName (input : String) : String :=
  trimSuffix (filepathBase input) (filepathExt input)

/-- The loop body of `convert`: the file name `fmt.Sprintf("%s.%s", baseFileName, outputFormat)`. -/
def outputName (opts : Options) (input : String) : String :=
  baseFileName input ++ "." ++ opts.outputFormat

/-- The loop body of `convert`: `outputFile`. -/
def outputFileOf (opts : Options) (input : String) : String :=
  filepathJoin [opts.outputDir, outputName opts input]

/-- What `convert` sees of `os.Stat(input)`: no error, an error for which `os.IsNotExist` holds,
or any other error (the path runs through a file, a directory cannot be searched, ...). -/
inductive StatOutcome where
  | found
  | notExist
  | otherError
  deriving DecidableEq, Repr

/-- The loop `for _, input := range inputFiles` of `convert`: an input is skipped only when
`os.IsNotExist(err)` holds for the error of `os.Stat(input)`; every other input becomes a job,
in order. -/
def buildJobs (opts : Options) (stat : String → StatOutcome) : List ConversionJob :=
  opts.inputFiles.filterMap fun input =>
    if stat input = StatOutcome.notExist then none
    else some {
      inputFile := input
      outputFile := outputFileOf opts input
      quality := opts.quality
      resolution := opts.resolution
      compressionLevel := opts.compressionLevel
      targetSize := opts.targetSize
      videoBitrate := opts.videoBitrate
      audioBitrate := opts.audioBitrate }

/-- The sequential branch of `convert`: the jobs run one after another, in input order. -/
def runSequential (env : Env) (jobs : List ConversionJob) (fs : FileSystem) : FileSystem :=
  jobs.foldl (fun acc job => (processFile env job acc).2) fs

/-! ## Auxiliary definitions for the statements -/

/-- The arguments appended by the compression `switch` of `getFFmpegArgs`. -/
def compressionArgs (level : String) : List String :=
  if level = "light" then
    ["-c:v", "libx264", "-crf", "23", "-preset", "medium"] ++ ["-c:a", "aac", "-b:a", "128k"]
  else if level = "medium" then
    ["-c:v", "libx264", "-crf", "28", "-preset", "medium"] ++ ["-c:a", "aac", "-b:a", "96k"]
  else if level = "heavy" then
    ["-c:v", "libx264", "-crf", "32", "-preset", "medium"] ++ ["-c:a", "aac", "-b:a", "64k"]
  else []

/-- The arguments appended by the quality block of `getFFmpegArgs`. -/
def qualityArgs (level quality : String) : List String :=
  if level = "" then
    if quality = "low" then ["-crf", "28"]
    else if quality = "high" then ["-crf", "18"]
    else ["-crf", "23"]
  else []

/-- The arguments `getFFmpegArgs` appends after the explicit video bitrate. -/
def laterArgs (job : ConversionJob) : List String :=
  (if job.audioBitrate ≠ "" then ["-b:a", job.audioBitrate] else [])
    ++ targetSizeArgs job.targetSize
    ++ (if job.resolution ≠ "" then ["-vf", "scale=" ++ job.resolution] else [])
    ++ ["-y", job.outputFile]

/-- What `getFFmpegArgs` has appended when it reaches the target-size block. -/
def beforeTargetArgs (job : ConversionJob) : List String :=
  ["-i", job.inputFile] ++ compressionArgs job.compressionLevel
    ++ qualityArgs job.compressionLevel job.quality
    ++ (if job.videoBitrate ≠ "" then ["-b:v", job.videoBitrate] else [])
    ++ (if job.audioBitrate ≠ "" then ["-b:a", job.audioBitrate] else [])

/-- What `getFFmpegArgs` appends after the target-size block. -/
def afterTargetArgs (job : ConversionJob) : List String :=
  (if job.resolution ≠ "" then ["-vf", "scale=" ++ job.resolution] else [])
    ++ ["-y", job.outputFile]

/-- A job whose target size is twenty nines followed by a letter. -/
def overflowJob : ConversionJob :=
  ⟨"in.avi", "out.mp4", "medium", "", "", "99999999999999999999xM", "", ""⟩

/-- A job that writes `out/x.mp4`. -/
def sampleJob : ConversionJob :=
  ⟨"in.avi", "out/x.mp4", "medium", "", "", "", "", ""⟩

/-- A filesystem with the input and an earlier output `out/x.mp4` of content `old`. -/
def sampleFS : FileSystem :=
  fun p => if p = "out/x.mp4" then some "old" else if p = "in.avi" then some "video" else none

/-- A filesystem with the input and no earlier output. -/
def freshFS : FileSystem :=
  fun p => if p = "in.avi" then some "video" else none

/-- Every input is found by `os.Stat`. -/
def allFound : String → StatOutcome :=
  fun _ => StatOutcome.found

/-- Two distinct inputs with the same base name, converted to `mp4` into `out`. -/
def clashOptions : Options :=
  ⟨["a/x.avi", "b/x.mkv"], "mp4", "medium", "", false, "out", "", "", "", ""⟩

/-- One input in `/videos`, converted to `mp4` with no output directory given. -/
def noOutputDirOptions : Options :=
  ⟨["/videos/a.avi"], "mp4", "medium", "", false, "", "", "", "", ""⟩

/-- The output paths of a job list. -/
def outputPaths (jobs : List ConversionJob) : List String :=
  jobs.map fun j => j.outputFile

/-- The temporary paths of a job list. -/
def tmpPaths (jobs : List ConversionJob) : List String :=
  jobs.map fun j => tmpFileOf j.outputFile

/-- The inputs that `convert` does not skip. -/
def keptInputs (opts : Options) (stat : String → StatOutcome) : List String :=
  opts.inputFiles.filter fun i => decide (stat i ≠ StatOutcome.notExist)

/-- A single path element that `Clean` keeps as it is: not empty, without a separator, and
neither `.` nor `..`. -/
def isPlainElem (e : List Char) : Prop :=
  e ≠ [] ∧ (∀ c ∈ e, isPathSeparator c = false) ∧ e ≠ ['.'] ∧ e ≠ ['.', '.']

/-- The invariant of the loop of `Clean` on a rooted path: the output keeps its leading
separator and `..` never backtracks over it. -/
def CleanInv (rooted : Bool) (out : List Char) (dotdot : Nat) : Prop :=
  rooted = true → out.head? = some '/' ∧ 1 ≤ dotdot

/-- What `Clean` has written before a final plain element: nothing, or text ending in `/`. -/
def EndsDir (P : List Char) : Prop :=
  P = [] ∨ ∃ P1, P = P1 ++ ['/']

/-! ## Lemmas on `getFFmpegArgs` -/

theorem ite_append_same {α : Type} (c : Prop) [Decidable c] (l x : List α) :
    (if c then l ++ x else l) = l ++ (if c then x else []) := by
  split <;> simp

theorem ite_append_both {α : Type} (c : Prop) [Decidable c] (l x y : List α) :
    (if c then l ++ x else l ++ y) = l ++ (if c then x else y) := by
  split <;> rfl

theorem getFFmpegArgs_blocks (job : ConversionJob) :
    getFFmpegArgs job =
      ["-i", job.inputFile] ++ compressionArgs job.compressionLevel
        ++ qualityArgs job.compressionLevel job.quality
        ++ (if job.videoBitrate ≠ "" then ["-b:v", job.videoBitrate] else [])
        ++ laterArgs job := by
  unfold getFFmpegArgs compressionArgs qualityArgs laterArgs
  simp only [List.append_assoc, ite_append_both, ite_append_same]

theorem compressionArgs_unrecognised (c : String) (h1 : c ≠ "light") (h2 : c ≠ "medium")
    (h3 : c ≠ "heavy") : compressionArgs c = [] := by
  simp only [compressionArgs, h1, h2, h3, if_false]

theorem qualityArgs_of_level (c q : String) (h : c ≠ "") : qualityArgs c q = [] := by
  simp only [qualityArgs, h, if_false]

theorem compressionArgs_light : compressionArgs "light" =
    ["-c:v", "libx264", "-crf", "23", "-preset", "medium", "-c:a", "aac", "-b:a", "128k"] := by
  decide

theorem compressionArgs_medium : compressionArgs "medium" =
    ["-c:v", "libx264", "-crf", "28", "-preset", "medium", "-c:a", "aac", "-b:a", "96k"] := by
  decide

theorem compressionArgs_heavy : compressionArgs "heavy" =
    ["-c:v", "libx264", "-crf", "32", "-preset", "medium", "-c:a", "aac", "-b:a", "64k"] := by
  decide

theorem compressionArgs_empty : compressionArgs "" = [] := by
  decide


theorem getFFmpegArgs_around_target (job : ConversionJob) :
    getFFmpegArgs job
      = beforeTargetArgs job ++ targetSizeArgs job.targetSize ++ afterTargetArgs job := by
  rw [getFFmpegArgs_blocks]
  simp only [laterArgs, beforeTargetArgs, afterTargetArgs, List.append_assoc]

theorem targetSizeArgs_empty : targetSizeArgs "" = [] := by
  simp [targetSizeArgs]

theorem getFFmpegArgs_without_target (job : ConversionJob) :
    getFFmpegArgs { job with targetSize := "" } = beforeTargetArgs job ++ afterTargetArgs job := by
  rw [getFFmpegArgs_around_target]
  simp only [targetSizeArgs_empty, List.append_nil]
  rfl


/-! ## Lemmas on `strconv.Atoi` and the decimal numerals -/

theorem toDigitsCore_append (b : Nat) : ∀ (fuel n : Nat) (ds : List Char),
    Nat.toDigitsCore b fuel n ds = Nat.toDigitsCore b fuel n [] ++ ds := by
  intro fuel
  induction fuel with
  | zero => intro n ds; simp [Nat.toDigitsCore]
  | succ f ih =>
    intro n ds
    simp only [Nat.toDigitsCore]
    split
    · simp
    · rw [ih (n / b) (_ :: ds), ih (n / b) [_]]
      simp

theorem toDigitsCore_fuel (b : Nat) (hb : 2 ≤ b) : ∀ (f1 f2 n : Nat) (ds : List Char),
    n < f1 → n < f2 → Nat.toDigitsCore b f1 n ds = Nat.toDigitsCore b f2 n ds := by
  intro f1
  induction f1 with
  | zero => intro f2 n ds h; omega
  | succ f ih =>
    intro f2 n ds h1 h2
    cases f2 with
    | zero => omega
    | succ g =>
      simp only [Nat.toDigitsCore]
      split
      · rfl
      · rename_i hne
        have hpos : 0 < n := by
          rcases Nat.eq_zero_or_pos n with h0 | h0
          · exact absurd (by simp [h0]) hne
          · exact h0
        have hlt : n / b < n := Nat.div_lt_self hpos hb
        exact ih g (n / b) _ (by omega) (by omega)

theorem toDigits_lt (n : Nat) (h : n < 10) : Nat.toDigits 10 n = [Nat.digitChar n] := by
  interval_cases n <;> rfl

theorem toDigits_step (n : Nat) (h : 10 ≤ n) :
    Nat.toDigits 10 n = Nat.toDigits 10 (n / 10) ++ [Nat.digitChar (n % 10)] := by
  have hne : n / 10 ≠ 0 := by omega
  have : Nat.toDigits 10 n = Nat.toDigitsCore 10 n (n / 10) [Nat.digitChar (n % 10)] := by
    simp only [Nat.toDigits, Nat.toDigitsCore, hne, if_false]
  rw [this, toDigitsCore_append]
  congr 1
  exact toDigitsCore_fuel 10 (by decide) _ _ _ _ (by omega) (by omega)

theorem digitChar_isDigit (d : Nat) (h : d < 10) :
    isDigit (Nat.digitChar d) = true ∧ digitVal (Nat.digitChar d) = d
      ∧ (Nat.digitChar d).utf8Size = 1 ∧ Nat.digitChar d ≠ '-' ∧ Nat.digitChar d ≠ '+' := by
  interval_cases d <;> decide

theorem atoiFastLoop_append (l : List Char) (c : Char) : ∀ acc : Nat,
    atoiFastLoop (l ++ [c]) acc =
      (atoiFastLoop l acc).bind (fun m => if isDigit c then some (m * 10 + digitVal c) else none) := by
  induction l with
  | nil => intro acc; simp [atoiFastLoop]
  | cons a l ih =>
    intro acc
    simp only [List.cons_append, atoiFastLoop]
    split
    · exact ih _
    · rfl

/-- Facts about the decimal numeral of `n`. -/
theorem toDigits_facts : ∀ n : Nat,
    atoiFastLoop (Nat.toDigits 10 n) 0 = some n
      ∧ byteLen (Nat.toDigits 10 n) = (Nat.toDigits 10 n).length
      ∧ (∃ c cs, Nat.toDigits 10 n = c :: cs ∧ c ≠ '-' ∧ c ≠ '+') := by
  intro n
  induction n using Nat.strong_induction_on with
  | _ n ih =>
    by_cases h : n < 10
    · rw [toDigits_lt n h]
      obtain ⟨h1, h2, h3, h4, h5⟩ := digitChar_isDigit n h
      refine ⟨?_, ?_, ⟨_, _, rfl, h4, h5⟩⟩
      · simp [atoiFastLoop, h1, h2]
      · simp [byteLen, h3]
    · have hstep := toDigits_step n (by omega)
      obtain ⟨i1, i2, c, cs, i3, i4, i5⟩ := ih (n / 10) (by omega)
      obtain ⟨h1, h2, h3, -, -⟩ := digitChar_isDigit (n % 10) (Nat.mod_lt _ (by decide))
      rw [hstep]
      refine ⟨?_, ?_, ⟨c, cs ++ [Nat.digitChar (n % 10)], by rw [i3]; rfl, i4, i5⟩⟩
      · rw [atoiFastLoop_append, i1]
        simp only [Option.bind, h1, h2, if_true]
        congr 1
        omega
      · simp only [byteLen] at i2 ⊢
        simp only [List.map_append, List.sum_append, i2, List.map_cons, List.map_nil,
          List.sum_cons, List.sum_nil, h3, List.length_append, List.length_singleton, Nat.add_zero]

theorem toDigits_length_le (n e : Nat) (h : n < 10 ^ e) (he : 0 < e) :
    (Nat.toDigits 10 n).length ≤ e := by
  exact Nat.repr_length n e he h

theorem atoi_repr (n : Nat) (h : n < 10 ^ 18) : atoi (Nat.repr n) = ((n : Int), none) := by
  obtain ⟨h1, h2, c, cs, h3, h4, h5⟩ := toDigits_facts n
  have hlen := toDigits_length_le n 18 h (by decide)
  have hd : (Nat.repr n).data = Nat.toDigits 10 n := rfl
  have hpos : 0 < (Nat.toDigits 10 n).length := by rw [h3]; simp
  have hhead : (Nat.toDigits 10 n).head? = some c := by rw [h3]; rfl
  have hs : ¬ ((Nat.toDigits 10 n).head? = some '-' ∨ (Nat.toDigits 10 n).head? = some '+') := by
    rw [hhead]
    intro h
    rcases h with h | h
    · exact h4 (Option.some.inj h)
    · exact h5 (Option.some.inj h)
  have hm : (Nat.toDigits 10 n).head? ≠ some '-' := fun h => hs (Or.inl h)
  have hlt : (Nat.toDigits 10 n).length < 19 := by omega
  unfold atoi atoiChars
  rw [hd, h2]
  have hp : (Nat.toDigits 10 n).head? ≠ some '+' := fun h => hs (Or.inr h)
  have hsign : hasSign (Nat.toDigits 10 n) = false := by
    simp only [hasSign, hm, hp, decide_False, Bool.or_self]
  have hstrip : stripSign (Nat.toDigits 10 n) = Nat.toDigits 10 n := by
    simp only [stripSign, hsign, Bool.false_eq_true, if_false]
  simp only [hpos, true_and, hlt, if_true, hm, hsign, hstrip, Bool.false_eq_true, if_false,
    false_and, h1]

theorem trimSuffixChars_append (l s : List Char) : trimSuffixChars (l ++ s) s = l := by
  have h : s.isSuffixOf (l ++ s) = true := by
    rw [List.isSuffixOf_iff_suffix]
    exact List.suffix_append l s
  simp only [trimSuffixChars, h, if_true, List.length_append, Nat.add_sub_cancel]
  exact List.take_left l s

theorem trimSuffix_append (a s : String) : trimSuffix (a ++ s) s = a := by
  apply String.ext
  simp only [trimSuffix, String.data_append]
  exact trimSuffixChars_append a.data s.data

theorem formatInt_natCast (m : Nat) : formatInt (m : Int) = Nat.repr m := by
  have h : ¬ ((m : Int) < 0) := by omega
  simp only [formatInt, h, if_false, Int.natAbs_ofNat]

theorem wrapInt64_of_lt (m : Nat) (h : m < 2 ^ 63) : wrapInt64 (m : Int) = (m : Int) := by
  unfold wrapInt64
  have h1 : ((m : Int) + 2 ^ 63) % 2 ^ 64 = (m : Int) + 2 ^ 63 := by
    apply Int.emod_eq_of_lt <;> omega
  rw [h1]
  omega

/-- The target-size block on the decimal numeral of `n` followed by `M`. -/
theorem targetSizeArgs_numeral (n : Nat) (hn : n * 8 * 1024 * 1024 < 2 ^ 63) :
    targetSizeArgs (Nat.repr n ++ "M") =
      ["-maxrate", Nat.repr (n * 8 * 1024 * 1024 / 600 / 1000) ++ "k",
       "-bufsize", Nat.repr (n * 8 * 1024 * 1024 / 600 / 1000 / 2) ++ "k"] := by
  have hne : Nat.repr n ++ "M" ≠ "" := by
    intro h
    have h2 := congrArg String.length h
    rw [String.length_append] at h2
    have h3 : "M".length = 1 := by decide
    have h4 : "".length = 0 := by decide
    omega
  have hn18 : n < 10 ^ 18 := by omega
  have hcast : ((n : Int) * 8 * 1024 * 1024) = ((n * 8 * 1024 * 1024 : Nat) : Int) := by
    push_cast; ring
  have hdiv : n * 8 * 1024 * 1024 / 600 / 2000 = n * 8 * 1024 * 1024 / 600 / 1000 / 2 := by
    omega
  simp only [targetSizeArgs, hne, ne_eq, not_false_eq_true, if_true, trimSuffix_append,
    atoi_repr n hn18, hcast, wrapInt64_of_lt _ hn]
  rw [show (600 : Int) = ((600 : Nat) : Int) from rfl, ← Int.ofNat_tdiv,
    show (1000 : Int) = ((1000 : Nat) : Int) from rfl, ← Int.ofNat_tdiv,
    show (2000 : Int) = ((2000 : Nat) : Int) from rfl, ← Int.ofNat_tdiv,
    formatInt_natCast, formatInt_natCast, hdiv]
  rfl


theorem atoiFastLoop_nondigit : ∀ (l : List Char) (acc : Nat),
    l.all isDigit = false → atoiFastLoop l acc = none := by
  intro l
  induction l with
  | nil => intro acc h; simp at h
  | cons c cs ih =>
    intro acc h
    simp only [atoiFastLoop]
    by_cases hc : isDigit c = true
    · simp only [hc, if_true]
      apply ih
      simpa [List.all_cons, hc] using h
    · simp only [hc, if_false]
      rfl

theorem digitVal_le (c : Char) (h : isDigit c = true) : digitVal c ≤ 9 := by
  simp only [isDigit, Bool.and_eq_true, decide_eq_true_eq] at h
  unfold digitVal
  omega

theorem foldl_digits_ge (ds : List Char) : ∀ n : Nat,
    n ≤ ds.foldl (fun n c => n * 10 + digitVal c) n := by
  induction ds with
  | nil => intro n; exact le_refl n
  | cons c cs ih =>
    intro n
    simp only [List.foldl_cons]
    have := ih (n * 10 + digitVal c)
    omega

/-- The loop of `ParseUint` on a text with a character that is not a digit: a syntax error
when the digits before that character stay within 64 bits, else a range error. -/
theorem parseUintLoop_nondigit : ∀ (l : List Char) (n : Nat),
    l.all isDigit = false → n ≤ maxUint64 →
    parseUintLoop l n =
      if (l.takeWhile isDigit).foldl (fun n c => n * 10 + digitVal c) n ≤ maxUint64
      then (0, some NumError.invalid) else (maxUint64, some NumError.range) := by
  intro l
  induction l with
  | nil => intro n h; simp at h
  | cons c cs ih =>
    intro n h hn
    have hmax : maxUint64 = 18446744073709551615 := by decide
    simp only [parseUintLoop]
    by_cases hc : isDigit c = true
    · simp only [hc, if_true, List.takeWhile_cons, List.foldl_cons]
      have hge := foldl_digits_ge (cs.takeWhile isDigit) (n * 10 + digitVal c)
      have hd := digitVal_le c hc
      by_cases h1 : n ≥ maxUint64 / 10 + 1
      · have hover : ¬ ((cs.takeWhile isDigit).foldl (fun n c => n * 10 + digitVal c)
            (n * 10 + digitVal c) ≤ maxUint64) := by
          rw [hmax] at h1 ⊢
          omega
        simp only [h1, if_true, hover, if_false]
      · simp only [h1, if_false]
        by_cases h2 : n * 10 + digitVal c > maxUint64
        · have hover : ¬ ((cs.takeWhile isDigit).foldl (fun n c => n * 10 + digitVal c)
              (n * 10 + digitVal c) ≤ maxUint64) := by omega
          simp only [h2, if_true, hover, if_false]
        · simp only [h2, if_false]
          exact ih _ (by simpa [List.all_cons, hc] using h) (by omega)
    · have hc2 : isDigit c = false := by simpa using hc
      simp only [hc2, Bool.false_eq_true, if_false, List.takeWhile_cons, List.foldl_nil, hn,
        if_true]

theorem foldl_digits_lt (ds : List Char) (hds : ∀ c ∈ ds, isDigit c = true) : ∀ n k : Nat,
    n < 10 ^ k → ds.foldl (fun n c => n * 10 + digitVal c) n < 10 ^ (k + ds.length) := by
  induction ds with
  | nil => intro n k h; simpa using h
  | cons c cs ih =>
    intro n k h
    simp only [List.foldl_cons, List.length_cons]
    have hd := digitVal_le c (hds c (List.mem_cons_self c cs))
    have := ih (fun x hx => hds x (List.mem_cons_of_mem c hx)) (n * 10 + digitVal c) (k + 1)
      (by rw [Nat.pow_succ]; omega)
    rw [show k + (cs.length + 1) = k + 1 + cs.length by omega]
    exact this

theorem byteLen_ge_length (s : List Char) : s.length ≤ byteLen s := by
  induction s with
  | nil => simp [byteLen]
  | cons c cs ih =>
    have hpos : 0 < c.utf8Size := Char.utf8Size_pos c
    simp only [byteLen, List.map_cons, List.sum_cons, List.length_cons] at ih ⊢
    omega

theorem stripSign_length_le (s : List Char) : (stripSign s).length ≤ s.length := by
  unfold stripSign
  split
  · simp
  · exact le_refl _

/-- A run of digits that overflows 64 bits has at least 20 digits, so the text is at least 20
bytes long. -/
theorem byteLen_of_overflow (s : List Char) (h : ¬ leadingValue s ≤ maxUint64) :
    20 ≤ byteLen s := by
  unfold leadingValue at h
  have hlt := foldl_digits_lt ((stripSign s).takeWhile isDigit)
    (fun c hc => List.mem_takeWhile_imp hc) 0 0 (by decide)
  have hlen : 20 ≤ ((stripSign s).takeWhile isDigit).length := by
    by_contra hcon
    have h19 : 0 + ((stripSign s).takeWhile isDigit).length ≤ 19 := by omega
    have hp : (10 : Nat) ^ (0 + ((stripSign s).takeWhile isDigit).length) ≤ 10 ^ 19 :=
      Nat.pow_le_pow_right (by decide) h19
    have hmax : maxUint64 = 18446744073709551615 := by decide
    have h10 : (10 : Nat) ^ 19 = 10000000000000000000 := by norm_num
    rw [hmax] at h
    omega
  have h1 := (List.takeWhile_sublist isDigit (l := stripSign s)).length_le
  have h2 := stripSign_length_le s
  have h3 := byteLen_ge_length s
  omega

theorem byteLen_pos_ne_nil (s : List Char) (h : 0 < byteLen s) : s ≠ [] := by
  intro h0
  rw [h0] at h
  simp [byteLen] at h

theorem stripSign_all_false (s : List Char) (hnd : isDecimalInteger s = false)
    (he : stripSign s ≠ []) : (stripSign s).all isDigit = false := by
  unfold isDecimalInteger at hnd
  cases hd : stripSign s with
  | nil => exact absurd hd he
  | cons a l =>
    rw [hd] at hnd
    simpa using hnd

/-- What `Atoi` returns for a text that is not an optionally signed decimal integer: 0 with a
syntax error when the digits after the optional sign stay within 64 bits, else a range error
with the smallest `int` after a `-` and the largest `int` otherwise. -/
theorem atoiChars_not_integer (s : List Char) (hnd : isDecimalInteger s = false) :
    atoiChars s =
      if leadingValue s ≤ maxUint64 then (0, some NumError.invalid)
      else if s.head? = some '-' then (-(2 ^ 63), some NumError.range)
      else (2 ^ 63 - 1, some NumError.range) := by
  unfold atoiChars
  split
  · rename_i hlen
    have hval : leadingValue s ≤ maxUint64 := by
      by_contra hcon
      have := byteLen_of_overflow s hcon
      omega
    simp only [hval, if_true]
    split
    · rfl
    · rename_i hsig
      have hall : (stripSign s).all isDigit = false := by
        apply stripSign_all_false s hnd
        intro he
        have hs : s ≠ [] := byteLen_pos_ne_nil s hlen.1
        by_cases hsg : hasSign s = true
        · exact hsig ⟨hsg, by rw [he]; decide⟩
        · simp only [stripSign, hsg] at he
          exact hs he
      rw [atoiFastLoop_nondigit _ 0 hall]
  · unfold parseInt
    split
    · rename_i he
      subst he
      have : leadingValue [] ≤ maxUint64 := by decide
      simp only [this, if_true]
    · unfold parseUint
      by_cases he : stripSign s = []
      · have hval : leadingValue s ≤ maxUint64 := by
          unfold leadingValue
          rw [he]
          decide
        simp only [he, if_true, hval]
      · have hall := stripSign_all_false s hnd he
        have hloop := parseUintLoop_nondigit (stripSign s) 0 hall (by decide)
        simp only [he, if_false, hloop]
        unfold leadingValue
        by_cases hval : ((stripSign s).takeWhile isDigit).foldl
            (fun n c => n * 10 + digitVal c) 0 ≤ maxUint64
        · simp only [hval, if_true]
        · have hmax : maxUint64 = 18446744073709551615 := by decide
          simp only [hval, if_false]
          by_cases hneg : s.head? = some '-'
          · simp [hneg, hmax]
          · simp [hneg, hmax]


/-! ## Lemmas on `filepath.Clean` -/

theorem backtrackLoop_ge (buf : List Char) (dotdot : Nat) : ∀ w : Nat,
    dotdot ≤ w → dotdot ≤ backtrackLoop buf dotdot w := by
  intro w
  induction w with
  | zero => intro h; simpa [backtrackLoop] using h
  | succ w ih =>
    intro h
    simp only [backtrackLoop]
    split
    · rename_i hc
      exact ih (by omega)
    · exact h

theorem takeWhile_notSep_of_allSep (sl : List Char)
    (hsl : ∀ c ∈ sl, isPathSeparator c = true) :
    sl.takeWhile (fun x => !isPathSeparator x) = [] := by
  cases sl with
  | nil => rfl
  | cons a l =>
    have := hsl a (List.mem_cons_self a l)
    simp [List.takeWhile, this]

theorem dropWhile_notSep_of_allSep (sl : List Char)
    (hsl : ∀ c ∈ sl, isPathSeparator c = true) :
    sl.dropWhile (fun x => !isPathSeparator x) = sl := by
  cases sl with
  | nil => rfl
  | cons a l =>
    have := hsl a (List.mem_cons_self a l)
    simp [List.dropWhile, this]

theorem dropWhile_notSep_append_sep (a r : List Char) :
    (a ++ '/' :: r).dropWhile (fun x => !isPathSeparator x)
      = a.dropWhile (fun x => !isPathSeparator x) ++ '/' :: r := by
  induction a with
  | nil => simp [List.dropWhile, isPathSeparator]
  | cons c cs ih =>
    by_cases hc : isPathSeparator c = true
    · simp [List.dropWhile, hc]
    · simp only [Bool.not_eq_true] at hc
      simp [List.dropWhile, hc, ih]

theorem cleanLoop_allSep (rooted : Bool) : ∀ (fuel : Nat) (sl out : List Char) (dotdot : Nat),
    (∀ c ∈ sl, isPathSeparator c = true) → cleanLoop rooted fuel sl out dotdot = out := by
  intro fuel
  induction fuel with
  | zero => intro sl out dotdot _; rfl
  | succ f ih =>
    intro sl out dotdot hsl
    cases sl with
    | nil => rfl
    | cons c cs =>
      have hc := hsl c (List.mem_cons_self c cs)
      simp only [cleanLoop, hc, if_true]
      exact ih cs out dotdot (fun x hx => hsl x (List.mem_cons_of_mem c hx))

theorem cleanLoop_plain (rooted : Bool) (e sl : List Char) (he : isPlainElem e)
    (hsl : ∀ c ∈ sl, isPathSeparator c = true) (fuel : Nat) (out : List Char) (dotdot : Nat)
    (hfuel : (e ++ sl).length ≤ fuel) (hinv : CleanInv rooted out dotdot) :
    ∃ P, EndsDir P ∧ cleanLoop rooted fuel (e ++ sl) out dotdot = P ++ e := by
  obtain ⟨hne, hns, hdot, hdotdot⟩ := he
  cases e with
  | nil => exact absurd rfl hne
  | cons c e1 =>
    cases fuel with
    | zero => simp at hfuel
    | succ f =>
      have hc : isPathSeparator c = false := hns c (List.mem_cons_self c e1)
      have h1 : ¬ (c = '.' ∧ (e1 ++ sl = [] ∨ ((e1 ++ sl).head?.map isPathSeparator) = some true)) := by
        rintro ⟨rfl, h⟩
        cases e1 with
        | nil => exact hdot rfl
        | cons d e2 =>
          have hd : isPathSeparator d = false :=
            hns d (List.mem_cons_of_mem _ (List.mem_cons_self d e2))
          rcases h with h | h
          · simp at h
          · simp [hd] at h
      have h2 : ¬ (c = '.' ∧ (e1 ++ sl).head? = some '.'
          ∧ ((e1 ++ sl).tail = [] ∨ ((e1 ++ sl).tail.head?.map isPathSeparator) = some true)) := by
        rintro ⟨rfl, hh, h⟩
        cases e1 with
        | nil =>
          cases sl with
          | nil => simp at hh
          | cons s sl1 =>
            have hs := hsl s (List.mem_cons_self s sl1)
            simp only [List.nil_append, List.head?_cons, Option.some.injEq] at hh
            rw [hh] at hs
            exact absurd hs (by decide)
        | cons d e2 =>
          simp only [List.cons_append, List.head?_cons, Option.some.injEq] at hh
          subst hh
          cases e2 with
          | nil => exact hdotdot rfl
          | cons d2 e3 =>
            have hd : isPathSeparator d2 = false :=
              hns d2 (List.mem_cons_of_mem _ (List.mem_cons_of_mem _ (List.mem_cons_self d2 e3)))
            rcases h with h | h
            · simp at h
            · simp [hd] at h
      have htake : ((c :: e1) ++ sl).takeWhile (fun x => !isPathSeparator x) = c :: e1 := by
        rw [List.takeWhile_append_of_pos (fun a ha => by simp [hns a ha]),
          takeWhile_notSep_of_allSep sl hsl, List.append_nil]
      have hdrop : ((c :: e1) ++ sl).dropWhile (fun x => !isPathSeparator x) = sl := by
        rw [List.dropWhile_append_of_pos (fun a ha => by simp [hns a ha]),
          dropWhile_notSep_of_allSep sl hsl]
      have hstep : cleanLoop rooted (f + 1) ((c :: e1) ++ sl) out dotdot =
          (if (rooted = true ∧ out.length ≠ 1) ∨ (¬ rooted = true ∧ out.length ≠ 0)
            then out ++ ['/'] else out) ++ (c :: e1) := by
        have hcons : (c :: e1) ++ sl = c :: (e1 ++ sl) := rfl
        rw [hcons] at htake hdrop ⊢
        simp only [cleanLoop, hc, h1, h2, if_false, Bool.false_eq_true]
        rw [htake, hdrop]
        exact cleanLoop_allSep rooted f sl _ dotdot hsl
      rw [hstep]
      refine ⟨_, ?_, rfl⟩
      split
      · exact Or.inr ⟨out, rfl⟩
      · rename_i hcond
        simp only [not_or, not_and, not_not] at hcond
        cases rooted with
        | true =>
          have hlen := hcond.1 rfl
          have hhead := (hinv rfl).1
          match out, hlen, hhead with
          | [a], _, hh =>
            simp only [List.head?_cons, Option.some.injEq] at hh
            subst hh
            exact Or.inr ⟨[], rfl⟩
        | false =>
          have hlen := hcond.2 (by decide)
          exact Or.inl (List.length_eq_zero.mp hlen)

theorem cleanInv_append (rooted : Bool) (out x : List Char) (dotdot : Nat)
    (h : CleanInv rooted out dotdot) : CleanInv rooted (out ++ x) dotdot := by
  intro hr
  obtain ⟨h1, h2⟩ := h hr
  refine ⟨?_, h2⟩
  cases out with
  | nil => simp at h1
  | cons a l => simpa using h1

theorem cleanInv_backtrack (rooted : Bool) (out : List Char) (dotdot : Nat)
    (h : CleanInv rooted out dotdot) (hlen : out.length > dotdot) :
    CleanInv rooted (out.take (backtrackLoop out dotdot (out.length - 1))) dotdot := by
  intro hr
  obtain ⟨h1, h2⟩ := h hr
  refine ⟨?_, h2⟩
  have hge := backtrackLoop_ge out dotdot (out.length - 1) (by omega)
  rw [List.head?_take]
  have : backtrackLoop out dotdot (out.length - 1) ≠ 0 := by omega
  simp only [this, if_false, h1]

theorem cleanLoop_before_plain (rooted : Bool) (e sl : List Char) (he : isPlainElem e)
    (hsl : ∀ c ∈ sl, isPathSeparator c = true) : ∀ (fuel : Nat) (q out : List Char) (dotdot : Nat),
    (q ++ '/' :: (e ++ sl)).length ≤ fuel → CleanInv rooted out dotdot →
    ∃ P, EndsDir P ∧ cleanLoop rooted fuel (q ++ '/' :: (e ++ sl)) out dotdot = P ++ e := by
  intro fuel
  induction fuel with
  | zero => intro q out dotdot hfuel; simp at hfuel
  | succ f ih =>
    intro q out dotdot hfuel hinv
    cases q with
    | nil =>
      have hstep : cleanLoop rooted (f + 1) ([] ++ '/' :: (e ++ sl)) out dotdot
          = cleanLoop rooted f (e ++ sl) out dotdot := by
        simp only [List.nil_append, cleanLoop, isPathSeparator, beq_self_eq_true, if_true]
      rw [hstep]
      exact cleanLoop_plain rooted e sl he hsl f out dotdot
        (by simp only [List.nil_append, List.length_cons] at hfuel; omega) hinv
    | cons c q1 =>
      have hlen : (q1 ++ '/' :: (e ++ sl)).length ≤ f := by
        simp only [List.cons_append, List.length_cons] at hfuel
        omega
      have hcons : (c :: q1) ++ '/' :: (e ++ sl) = c :: (q1 ++ '/' :: (e ++ sl)) := rfl
      rw [hcons]
      simp only [cleanLoop]
      split
      · exact ih q1 out dotdot hlen hinv
      · split
        · exact ih q1 out dotdot hlen hinv
        · split
          · rename_i hdd
            obtain ⟨-, hh, -⟩ := hdd
            cases q1 with
            | nil => simp at hh
            | cons d q2 =>
              have hlen2 : (q2 ++ '/' :: (e ++ sl)).length ≤ f := by
                simp only [List.cons_append, List.length_cons] at hlen
                omega
              simp only [List.cons_append, List.tail_cons]
              split
              · rename_i hw
                exact ih q2 _ dotdot hlen2 (cleanInv_backtrack rooted out dotdot hinv hw)
              · split
                · rename_i hnr
                  refine ih q2 _ _ hlen2 ?_
                  intro hr
                  exact absurd hr hnr
                · exact ih q2 out dotdot hlen2 hinv
          · rename_i hsep _ _
            rw [← hcons, dropWhile_notSep_append_sep]
            refine ih _ _ dotdot ?_ (cleanInv_append rooted _ _ dotdot ?_)
            · have h0 : (c :: q1).dropWhile (fun x => !isPathSeparator x)
                  = q1.dropWhile (fun x => !isPathSeparator x) := by
                simp only [Bool.not_eq_true] at hsep
                simp [List.dropWhile, hsep]
              have h1 := (List.dropWhile_suffix (fun x => !isPathSeparator x) (l := q1)).length_le
              rw [h0]
              simp only [List.length_append, List.length_cons] at hlen h1 ⊢
              omega
            · split
              · exact cleanInv_append rooted _ _ dotdot hinv
              · exact hinv

theorem cleanChars_plain_last (p e sl : List Char) (he : isPlainElem e)
    (hsl : ∀ c ∈ sl, isPathSeparator c = true)
    (hp : p = e ++ sl ∨ ∃ x, p = x ++ '/' :: (e ++ sl)) :
    ∃ P, EndsDir P ∧ cleanChars p = P ++ e := by
  have hne : e ≠ [] := he.1
  have key : ∀ out : List Char, (∃ P, EndsDir P ∧ out = P ++ e) →
      ∃ P, EndsDir P ∧ (if out.length = 0 then ['.'] else out) = P ++ e := by
    rintro out ⟨P, hP, rfl⟩
    refine ⟨P, hP, ?_⟩
    have : (P ++ e).length ≠ 0 := by
      have := List.length_pos.mpr hne
      simp only [List.length_append]
      omega
    simp only [this, if_false]
  rcases hp with rfl | ⟨x, rfl⟩
  · -- the path is the element itself
    obtain ⟨c, e1, rfl⟩ := List.exists_cons_of_ne_nil hne
    have hc : isPathSeparator c = false := he.2.1 c (List.mem_cons_self c e1)
    have hnil : (c :: e1) ++ sl ≠ [] := by simp
    unfold cleanChars
    simp only [hnil, if_false, List.cons_append, List.head?_cons, Option.map_some', hc,
      Option.some.injEq, Bool.false_eq_true]
    apply key
    exact cleanLoop_plain false (c :: e1) sl he hsl _ [] 0 (le_refl _) (by intro h; cases h)
  · have hnil : x ++ '/' :: (e ++ sl) ≠ [] := by simp
    unfold cleanChars
    simp only [hnil, if_false]
    split
    · rename_i hr
      apply key
      have hinv : CleanInv true ['/'] 1 := fun _ => ⟨rfl, le_refl 1⟩
      cases x with
      | nil =>
        exact cleanLoop_plain true e sl he hsl _ ['/'] 1
          (by simp only [List.nil_append, List.length_cons]; omega) hinv
      | cons c x1 =>
        exact cleanLoop_before_plain true e sl he hsl _ x1 ['/'] 1
          (by simp only [List.cons_append, List.length_cons, List.tail_cons]; omega) hinv
    · apply key
      exact cleanLoop_before_plain false e sl he hsl _ x [] 0 (le_refl _)
        (by intro h; cases h)

theorem baseChars_append_plain (P e : List Char) (hP : EndsDir P) (he : isPlainElem e) :
    baseChars (P ++ e) = e := by
  obtain ⟨hne, hns, -, -⟩ := he
  have hnil : P ++ e ≠ [] := by simp [hne]
  have hrev : (P ++ e).reverse = e.reverse ++ P.reverse := List.reverse_append _ _
  have hrne : e.reverse ≠ [] := by simpa using hne
  obtain ⟨a, r, har⟩ := List.exists_cons_of_ne_nil hrne
  have ha : isPathSeparator a = false := by
    apply hns
    rw [← List.mem_reverse, har]
    exact List.mem_cons_self a r
  have hdrop : ((P ++ e).reverse).dropWhile isPathSeparator = (P ++ e).reverse := by
    rw [hrev, har]
    simp [List.dropWhile, ha]
  have hPr : P.reverse.takeWhile (fun x => !isPathSeparator x) = [] := by
    rcases hP with rfl | ⟨P1, rfl⟩
    · rfl
    · simp [List.takeWhile, isPathSeparator]
  have htake : ((P ++ e).reverse).takeWhile (fun x => !isPathSeparator x) = e.reverse := by
    rw [hrev, List.takeWhile_append_of_pos, hPr, List.append_nil]
    intro c hc
    simp [hns c (List.mem_reverse.mp hc)]
  unfold baseChars
  simp only [hnil, if_false, hdrop, List.reverse_reverse, htake, hne]

theorem baseChars_cases (p : List Char) :
    baseChars p = ['/'] ∨ (baseChars p ≠ [] ∧ ∀ c ∈ baseChars p, isPathSeparator c = false) := by
  unfold baseChars
  split
  · right
    exact ⟨by simp, by decide⟩
  · simp only []
    split
    · left; rfl
    · rename_i hl
      right
      refine ⟨hl, ?_⟩
      intro c hc
      have := List.mem_takeWhile_imp (List.mem_reverse.mp hc)
      simpa using this

theorem intercalate_pair (a b : List Char) : ['/'].intercalate [a, b] = a ++ '/' :: b := by
  simp [List.intercalate, List.intersperse]

theorem ite_dot_ne_nil (out : List Char) : (if out.length = 0 then ['.'] else out) ≠ [] := by
  split
  · simp
  · rename_i h
    intro h0
    exact h (by rw [h0]; rfl)

theorem cleanChars_ne_nil (p : List Char) : cleanChars p ≠ [] := by
  unfold cleanChars
  split
  · simp
  · exact ite_dot_ne_nil _

theorem joinChars_pair_of_ne_nil (d t : List Char) (hd : d ≠ []) :
    joinChars [d, t] = cleanChars (d ++ '/' :: t) := by
  simp only [joinChars, hd, ne_eq, not_false_eq_true, if_true, intercalate_pair]

theorem joinChars_pair_plain (d e : List Char) (he : isPlainElem e) :
    ∃ P, EndsDir P ∧ joinChars [d, e] = P ++ e := by
  have hsl : ∀ c ∈ ([] : List Char), isPathSeparator c = true := by simp
  by_cases hd : d = []
  · subst hd
    have : joinChars [[], e] = cleanChars e := by
      simp [joinChars, he.1, List.intercalate, List.intersperse]
    rw [this]
    exact cleanChars_plain_last e e [] he hsl (Or.inl (by simp))
  · rw [joinChars_pair_of_ne_nil d e hd]
    exact cleanChars_plain_last _ e [] he hsl (Or.inr ⟨d, by simp⟩)

theorem baseChars_joinChars_plain (d e : List Char) (he : isPlainElem e) :
    baseChars (joinChars [d, e]) = e := by
  obtain ⟨P, hP, h⟩ := joinChars_pair_plain d e he
  rw [h]
  exact baseChars_append_plain P e hP he

theorem isPlainElem_tmp (b : List Char) (hb : ∀ c ∈ b, isPathSeparator c = false) :
    isPlainElem (['t', 'm', 'p', '_'] ++ b) := by
  refine ⟨by simp, ?_, by simp, by simp⟩
  intro c hc
  rcases List.mem_append.mp hc with h | h
  · simp only [List.mem_cons, List.mem_singleton, List.not_mem_nil, or_false] at h
    rcases h with rfl | rfl | rfl | rfl <;> decide
  · exact hb c h

/-- The base name of the temporary path is `tmp_` followed by the base name of the output path
(by nothing when that base name is the root `/`). -/
theorem baseChars_tmp (o : List Char) :
    baseChars (joinChars [dirChars o, ['t', 'm', 'p', '_'] ++ baseChars o])
      = ['t', 'm', 'p', '_'] ++ (if baseChars o = ['/'] then [] else baseChars o) := by
  have hdir : dirChars o ≠ [] := cleanChars_ne_nil _
  rcases baseChars_cases o with h | ⟨-, h⟩
  · rw [h, joinChars_pair_of_ne_nil _ _ hdir]
    simp only [if_true, List.append_nil]
    have he : isPlainElem ['t', 'm', 'p', '_'] := by
      simpa using isPlainElem_tmp [] (by simp)
    obtain ⟨P, hP, hc⟩ := cleanChars_plain_last
      (dirChars o ++ '/' :: (['t', 'm', 'p', '_'] ++ ['/'])) ['t', 'm', 'p', '_'] ['/'] he
      (by decide) (Or.inr ⟨dirChars o, rfl⟩)
    rw [hc]
    exact baseChars_append_plain P _ hP he
  · have hne : baseChars o ≠ ['/'] := by
      intro h0
      rw [h0] at h
      exact absurd (h '/' (List.mem_singleton.mpr rfl)) (by decide)
    simp only [hne, if_false]
    exact baseChars_joinChars_plain _ _ (isPlainElem_tmp _ h)

theorem tmpFileOf_data (o : String) :
    (tmpFileOf o).data = joinChars [dirChars o.data, ['t', 'm', 'p', '_'] ++ baseChars o.data] := by
  rfl

/-- The temporary path of a job is never its output path. -/
theorem tmpFileOf_ne (o : String) : tmpFileOf o ≠ o := by
  intro h
  have h1 := baseChars_tmp o.data
  rw [← tmpFileOf_data, h] at h1
  split at h1
  · rename_i hb
    rw [hb] at h1
    exact absurd h1 (by decide)
  · have := congrArg List.length h1
    simp only [List.length_append, List.length_cons, List.length_nil] at this
    omega

/-! ## Lemmas on `processFile` -/

theorem getLast?_set_last (l : List String) (t : String) (h : l ≠ []) :
    (l.set (l.length - 1) t).getLast? = some t := by
  induction l with
  | nil => exact absurd rfl h
  | cons a l ih =>
    cases l with
    | nil => rfl
    | cons b l =>
      have := ih (by simp)
      simp only [List.length_cons, Nat.add_sub_cancel, List.set_cons_succ] at this ⊢
      cases hm : (b :: l).set l.length t with
      | nil => rw [hm] at this; simp at this
      | cons c m =>
        rw [hm] at this
        rw [List.getLast?_cons_cons]
        exact this

theorem getFFmpegArgs_ne_nil (job : ConversionJob) : getFFmpegArgs job ≠ [] := by
  rw [getFFmpegArgs_blocks]
  simp

/-- The engine run of `processFile` touches the temporary path only. -/
theorem runEngine_processFile (env : Env) (job : ConversionJob) (fs : FileSystem) :
    runEngine env ((getFFmpegArgs job).set ((getFFmpegArgs job).length - 1)
        (tmpFileOf job.outputFile)) fs
      = (env.engineExitZero, setFile fs (tmpFileOf job.outputFile) env.engineLeaves) := by
  unfold runEngine
  rw [getLast?_set_last _ _ (getFFmpegArgs_ne_nil job)]

theorem setFile_same (fs : FileSystem) (p : String) (c : Option String) :
    setFile fs p c p = c := by
  simp [setFile]

theorem setFile_other (fs : FileSystem) (p q : String) (c : Option String) (h : q ≠ p) :
    setFile fs p c q = fs q := by
  simp [setFile, h]

/-! ## Lemmas on the job builder -/

theorem filepathBase_join_plain (d n : String) (hn : isPlainElem n.data) :
    filepathBase (filepathJoin [d, n]) = n := by
  apply String.ext
  exact baseChars_joinChars_plain d.data n.data hn

theorem filepathBase_tmpFileOf (o n : String) (ho : filepathBase o = n)
    (hn : isPlainElem n.data) : filepathBase (tmpFileOf o) = "tmp_" ++ n := by
  apply String.ext
  have h1 := baseChars_tmp o.data
  have h2 : baseChars o.data = n.data := congrArg String.data ho
  have h3 : n.data ≠ ['/'] := by
    intro h
    have := hn.2.1 '/' (by rw [h]; exact List.mem_singleton.mpr rfl)
    exact absurd this (by decide)
  rw [h2] at h1
  simp only [h3, if_false] at h1
  show baseChars (tmpFileOf o).data = _
  rw [tmpFileOf_data, h2, h1]
  rfl

theorem string_append_right_cancel (a b s : String) (h : a ++ s = b ++ s) : a = b := by
  apply String.ext
  have := congrArg String.data h
  simp only [String.data_append] at this
  exact List.append_cancel_right this

theorem string_append_left_cancel (a b s : String) (h : s ++ a = s ++ b) : a = b := by
  apply String.ext
  have := congrArg String.data h
  simp only [String.data_append] at this
  exact List.append_cancel_left this

theorem outputPaths_buildJobs (opts : Options) (stat : String → StatOutcome) :
    outputPaths (buildJobs opts stat) = (keptInputs opts stat).map (outputFileOf opts) := by
  unfold outputPaths buildJobs keptInputs
  induction opts.inputFiles with
  | nil => rfl
  | cons i l ih =>
    by_cases h : stat i = StatOutcome.notExist
    · simpa [List.filterMap_cons, List.filter_cons, h] using ih
    · simpa [List.filterMap_cons, List.filter_cons, h] using ih

theorem isPlainElem_of_name (stem fmt : String)
    (hsep : '/' ∉ (stem ++ "." ++ fmt).data) (h1 : stem ++ "." ++ fmt ≠ ".")
    (h2 : stem ++ "." ++ fmt ≠ "..") : isPlainElem (stem ++ "." ++ fmt).data := by
  refine ⟨?_, ?_, ?_, ?_⟩
  · simp only [String.data_append]
    intro h
    have := congrArg List.length h
    have hdot : (".": String).data.length = 1 := by decide
    simp only [List.length_append, hdot, List.length_nil] at this
    omega
  · intro c hc
    cases hs : isPathSeparator c with
    | false => rfl
    | true =>
      have : c = '/' := by simpa [isPathSeparator] using hs
      subst this
      exact absurd hc hsep
  · intro h
    exact h1 (String.ext h)
  · intro h
    exact h2 (String.ext h)

theorem tmpPaths_eq (jobs : List ConversionJob) :
    tmpPaths jobs = (outputPaths jobs).map tmpFileOf := by
  simp [tmpPaths, outputPaths, List.map_map]
/-- C1: for a job whose compression level is `light`, `medium` or `heavy`, the arguments start
with `-i`, the input, `-c:v libx264 -crf F -preset medium -c:a aac -b:a A`, where `(F, A)` is
`(23, 128k)`, `(28, 96k)` or `(32, 64k)`, and they are the same for every value of the quality:
the quality preset is not applied as well. -/
theorem getFFmpegArgs_compression_preset (job : ConversionJob) (F A : String)
    (h : (job.compressionLevel = "light" ∧ F = "23" ∧ A = "128k")
       ∨ (job.compressionLevel = "medium" ∧ F = "28" ∧ A = "96k")
       ∨ (job.compressionLevel = "heavy" ∧ F = "32" ∧ A = "64k")) :
    (∃ rest, getFFmpegArgs job =
        ["-i", job.inputFile, "-c:v", "libx264", "-crf", F, "-preset", "medium",
          "-c:a", "aac", "-b:a", A] ++ rest)
    ∧ ∀ q : String, getFFmpegArgs { job with quality := q } = getFFmpegArgs job := by
  have hne : job.compressionLevel ≠ "" := by
    rcases h with ⟨hc, -, -⟩ | ⟨hc, -, -⟩ | ⟨hc, -, -⟩ <;> rw [hc] <;> decide
  refine ⟨?_, ?_⟩
  · refine ⟨(if job.videoBitrate ≠ "" then ["-b:v", job.videoBitrate] else []) ++ laterArgs job, ?_⟩
    rw [getFFmpegArgs_blocks, qualityArgs_of_level _ _ hne]
    rcases h with ⟨hc, rfl, rfl⟩ | ⟨hc, rfl, rfl⟩ | ⟨hc, rfl, rfl⟩
    · rw [hc, compressionArgs_light]
      simp only [List.append_assoc, List.cons_append, List.nil_append, List.append_nil]
    · rw [hc, compressionArgs_medium]
      simp only [List.append_assoc, List.cons_append, List.nil_append, List.append_nil]
    · rw [hc, compressionArgs_heavy]
      simp only [List.append_assoc, List.cons_append, List.nil_append, List.append_nil]
  · intro q
    rw [getFFmpegArgs_blocks, getFFmpegArgs_blocks]
    simp only [qualityArgs_of_level _ _ hne, laterArgs]

theorem getFFmpegArgs_compression_preset_witness :
    (∃ rest, getFFmpegArgs ⟨"in.avi", "out.mp4", "high", "", "medium", "", "", ""⟩ =
        ["-i", "in.avi", "-c:v", "libx264", "-crf", "28", "-preset", "medium",
          "-c:a", "aac", "-b:a", "96k"] ++ rest)
    ∧ ∀ q : String, getFFmpegArgs { (⟨"in.avi", "out.mp4", "high", "", "medium", "", "", ""⟩ : ConversionJob) with quality := q } = getFFmpegArgs ⟨"in.avi", "out.mp4", "high", "", "medium", "", "", ""⟩ :=
  getFFmpegArgs_compression_preset ⟨"in.avi", "out.mp4", "high", "", "medium", "", "", ""⟩ "28" "96k"
    (Or.inr (Or.inl ⟨rfl, rfl, rfl⟩))

/-- C2: for a job with an empty compression level, the arguments start with `-i`, the input,
`-crf`, `Q`, where `Q` is `28` for quality `low`, `18` for `high` and `23` for every other
quality; this branch adds nothing else: what follows is what follows the input for a job whose
compression level is not recognised, for which no preset is applied. -/
theorem getFFmpegArgs_quality_preset (job : ConversionJob) (Q : String)
    (hc : job.compressionLevel = "")
    (hQ : Q = if job.quality = "low" then "28" else if job.quality = "high" then "18" else "23") :
    ∃ rest, getFFmpegArgs job = ["-i", job.inputFile, "-crf", Q] ++ rest
      ∧ ∀ c : String, c ≠ "" → c ≠ "light" → c ≠ "medium" → c ≠ "heavy" →
          getFFmpegArgs { job with compressionLevel := c } = ["-i", job.inputFile] ++ rest := by
  subst hQ
  refine ⟨(if job.videoBitrate ≠ "" then ["-b:v", job.videoBitrate] else []) ++ laterArgs job, ?_, ?_⟩
  · rw [getFFmpegArgs_blocks, hc]
    rw [compressionArgs_empty]
    simp only [qualityArgs, if_true]
    split_ifs <;>
      simp only [List.append_assoc, List.cons_append, List.nil_append, List.append_nil]
  · intro c h0 h1 h2 h3
    rw [getFFmpegArgs_blocks]
    simp only [compressionArgs_unrecognised c h1 h2 h3, qualityArgs_of_level c _ h0, laterArgs,
      List.append_assoc, List.cons_append, List.nil_append, List.append_nil]

theorem getFFmpegArgs_quality_preset_witness :
    ∃ rest, getFFmpegArgs ⟨"in.avi", "out.mp4", "high", "", "", "", "", ""⟩
        = ["-i", "in.avi", "-crf", "18"] ++ rest
      ∧ ∀ c : String, c ≠ "" → c ≠ "light" → c ≠ "medium" → c ≠ "heavy" →
          getFFmpegArgs { (⟨"in.avi", "out.mp4", "high", "", "", "", "", ""⟩ : ConversionJob) with
            compressionLevel := c } = ["-i", "in.avi"] ++ rest :=
  getFFmpegArgs_quality_preset ⟨"in.avi", "out.mp4", "high", "", "", "", "", ""⟩ "18" rfl
    (by decide)

/-- C4: for a job with a non-empty video bitrate `v`, the arguments are those of the same job
without a video bitrate with the pair `-b:v`, `v` inserted right after the preset part; the
`-crf` flag of the compression or quality preset is still in that part, before the pair. -/
theorem getFFmpegArgs_video_bitrate_appended (job : ConversionJob) (v : String)
    (hv : job.videoBitrate = v) (hne : v ≠ "") :
    ∃ preset rest,
      getFFmpegArgs job = ["-i", job.inputFile] ++ preset ++ ["-b:v", v] ++ rest
      ∧ getFFmpegArgs { job with videoBitrate := "" } = ["-i", job.inputFile] ++ preset ++ rest
      ∧ (∀ F, (job.compressionLevel = "light" ∧ F = "23") ∨ (job.compressionLevel = "medium" ∧ F = "28")
            ∨ (job.compressionLevel = "heavy" ∧ F = "32")
            ∨ (job.compressionLevel = "" ∧ F = (if job.quality = "low" then "28" else if job.quality = "high" then "18" else "23"))
           → ∃ a b, preset = a ++ ["-crf", F] ++ b) := by
  subst hv
  refine ⟨compressionArgs job.compressionLevel ++ qualityArgs job.compressionLevel job.quality,
    laterArgs job, ?_, ?_, ?_⟩
  · rw [getFFmpegArgs_blocks]
    simp only [hne, ne_eq, not_false_eq_true, if_true, List.append_assoc]
  · rw [getFFmpegArgs_blocks]
    simp only [ne_eq, not_true_eq_false, if_false, List.append_nil, List.append_assoc, laterArgs]
  · intro F hF
    rcases hF with ⟨hc, rfl⟩ | ⟨hc, rfl⟩ | ⟨hc, rfl⟩ | ⟨hc, rfl⟩
    · exact ⟨["-c:v", "libx264"], ["-preset", "medium", "-c:a", "aac", "-b:a", "128k"], by
        rw [hc, compressionArgs_light, qualityArgs_of_level _ _ (by decide)]
        simp only [List.append_assoc, List.cons_append, List.nil_append, List.append_nil]⟩
    · exact ⟨["-c:v", "libx264"], ["-preset", "medium", "-c:a", "aac", "-b:a", "96k"], by
        rw [hc, compressionArgs_medium, qualityArgs_of_level _ _ (by decide)]
        simp only [List.append_assoc, List.cons_append, List.nil_append, List.append_nil]⟩
    · exact ⟨["-c:v", "libx264"], ["-preset", "medium", "-c:a", "aac", "-b:a", "64k"], by
        rw [hc, compressionArgs_heavy, qualityArgs_of_level _ _ (by decide)]
        simp only [List.append_assoc, List.cons_append, List.nil_append, List.append_nil]⟩
    · refine ⟨[], [], ?_⟩
      rw [hc, compressionArgs_empty]
      simp only [qualityArgs, if_true]
      split_ifs <;>
        simp only [List.append_assoc, List.cons_append, List.nil_append, List.append_nil]

theorem getFFmpegArgs_video_bitrate_appended_witness :
    ∃ preset rest,
      getFFmpegArgs ⟨"in.avi", "out.mp4", "low", "", "heavy", "", "2M", ""⟩
        = ["-i", "in.avi"] ++ preset ++ ["-b:v", "2M"] ++ rest
      ∧ getFFmpegArgs { (⟨"in.avi", "out.mp4", "low", "", "heavy", "", "2M", ""⟩ :
          ConversionJob) with videoBitrate := "" } = ["-i", "in.avi"] ++ preset ++ rest
      ∧ (∀ F, (("heavy" : String) = "light" ∧ F = "23") ∨ (("heavy" : String) = "medium" ∧ F = "28")
            ∨ (("heavy" : String) = "heavy" ∧ F = "32")
            ∨ (("heavy" : String) = "" ∧ F = (if ("low" : String) = "low" then "28"
                else if ("low" : String) = "high" then "18" else "23"))
           → ∃ a b, preset = a ++ ["-crf", F] ++ b) :=
  getFFmpegArgs_video_bitrate_appended ⟨"in.avi", "out.mp4", "low", "", "heavy", "", "2M", ""⟩ "2M"
    rfl (by decide)

/-- C3: when the target size is the decimal numeral of `n` followed by `M` and
`n*8*1024*1024` stays below `2^63`, `getFFmpegArgs` emits the adjacent arguments `-maxrate`,
`K` followed by `k`, `-bufsize`, `B` followed by `k` with `K = n*8*1024*1024/600/1000` and
`B = K/2` under integer division; for `100M` these are `1398k` and `699k`. -/
theorem getFFmpegArgs_target_size :
    (∀ (n : Nat) (job : ConversionJob), n * 8 * 1024 * 1024 < 2 ^ 63 →
      job.targetSize = Nat.repr n ++ "M" →
      ∃ pre post, getFFmpegArgs job =
        pre ++ ["-maxrate", Nat.repr (n * 8 * 1024 * 1024 / 600 / 1000) ++ "k",
                "-bufsize", Nat.repr (n * 8 * 1024 * 1024 / 600 / 1000 / 2) ++ "k"] ++ post)
    ∧ (∀ job : ConversionJob, job.targetSize = "100M" →
      ∃ pre post, getFFmpegArgs job = pre ++ ["-maxrate", "1398k", "-bufsize", "699k"] ++ post) := by
  have general : ∀ (n : Nat) (job : ConversionJob), n * 8 * 1024 * 1024 < 2 ^ 63 →
      job.targetSize = Nat.repr n ++ "M" →
      ∃ pre post, getFFmpegArgs job =
        pre ++ ["-maxrate", Nat.repr (n * 8 * 1024 * 1024 / 600 / 1000) ++ "k",
                "-bufsize", Nat.repr (n * 8 * 1024 * 1024 / 600 / 1000 / 2) ++ "k"] ++ post := by
    intro n job hn ht
    refine ⟨beforeTargetArgs job, afterTargetArgs job, ?_⟩
    rw [getFFmpegArgs_around_target, ht, targetSizeArgs_numeral n hn]
  refine ⟨general, ?_⟩
  intro job ht
  exact general 100 job (by decide) ht

theorem getFFmpegArgs_target_size_witness :
    (∃ pre post, getFFmpegArgs ⟨"in.avi", "out.mp4", "medium", "", "", "100M", "", ""⟩ =
        pre ++ ["-maxrate", Nat.repr (100 * 8 * 1024 * 1024 / 600 / 1000) ++ "k",
                "-bufsize", Nat.repr (100 * 8 * 1024 * 1024 / 600 / 1000 / 2) ++ "k"] ++ post)
    ∧ (∃ pre post, getFFmpegArgs ⟨"in.avi", "out.mp4", "medium", "", "", "100M", "", ""⟩ =
        pre ++ ["-maxrate", "1398k", "-bufsize", "699k"] ++ post) :=
  ⟨getFFmpegArgs_target_size.1 100 ⟨"in.avi", "out.mp4", "medium", "", "", "100M", "", ""⟩
      (by decide) (by decide),
   getFFmpegArgs_target_size.2 ⟨"in.avi", "out.mp4", "medium", "", "", "100M", "", ""⟩ rfl⟩

/-- C10, as the code has it: when the target size is not empty and its text before the trailing
`M` is not an optionally signed decimal integer, `getFFmpegArgs` does not fail and its other
arguments are those of the same job without a target size.  It emits the adjacent arguments
`-maxrate`, `0k`, `-bufsize`, `0k` unless that text starts, unsigned or after a `+`, with a run
of digits whose value exceeds `2^64-1`; in that one case it emits `-13k` and `-6k`. -/
theorem getFFmpegArgs_unparsable_target_size (job : ConversionJob)
    (hne : job.targetSize ≠ "")
    (hnd : isDecimalInteger (trimSuffix job.targetSize "M").data = false) :
    ∃ pre post,
      getFFmpegArgs { job with targetSize := "" } = pre ++ post
      ∧ (((trimSuffix job.targetSize "M").data.head? = some '-'
            ∨ leadingValue (trimSuffix job.targetSize "M").data ≤ maxUint64) →
          getFFmpegArgs job = pre ++ ["-maxrate", "0k", "-bufsize", "0k"] ++ post)
      ∧ (¬ ((trimSuffix job.targetSize "M").data.head? = some '-'
            ∨ leadingValue (trimSuffix job.targetSize "M").data ≤ maxUint64) →
          getFFmpegArgs job = pre ++ ["-maxrate", "-13k", "-bufsize", "-6k"] ++ post) := by
  have hatoi : atoi (trimSuffix job.targetSize "M") = _ :=
    atoiChars_not_integer (trimSuffix job.targetSize "M").data hnd
  refine ⟨beforeTargetArgs job, afterTargetArgs job, getFFmpegArgs_without_target job, ?_, ?_⟩
  · intro hcond
    rw [getFFmpegArgs_around_target]
    have hargs : targetSizeArgs job.targetSize = ["-maxrate", "0k", "-bufsize", "0k"] := by
      by_cases hval : leadingValue (trimSuffix job.targetSize "M").data ≤ maxUint64
      · simp only [hval, if_true] at hatoi
        simp only [targetSizeArgs, hne, ne_eq, not_false_eq_true, if_true, hatoi]
        decide
      · have hneg : (trimSuffix job.targetSize "M").data.head? = some '-' := by
          rcases hcond with h | h
          · exact h
          · exact absurd h hval
        simp only [hval, if_false, hneg, if_true] at hatoi
        simp only [targetSizeArgs, hne, ne_eq, not_false_eq_true, if_true, hatoi]
        decide
    rw [hargs]
  · intro hcond
    rw [getFFmpegArgs_around_target]
    have hval : ¬ leadingValue (trimSuffix job.targetSize "M").data ≤ maxUint64 :=
      fun h => hcond (Or.inr h)
    have hneg : ¬ (trimSuffix job.targetSize "M").data.head? = some '-' :=
      fun h => hcond (Or.inl h)
    simp only [hval, if_false, hneg] at hatoi
    have hargs : targetSizeArgs job.targetSize = ["-maxrate", "-13k", "-bufsize", "-6k"] := by
      simp only [targetSizeArgs, hne, ne_eq, not_false_eq_true, if_true, hatoi]
      decide
    rw [hargs]

theorem getFFmpegArgs_unparsable_target_size_witness :
    ∃ pre post,
      getFFmpegArgs { (⟨"in.avi", "out.mp4", "medium", "", "heavy", "1.5M", "", ""⟩ :
          ConversionJob) with targetSize := "" } = pre ++ post
      ∧ getFFmpegArgs ⟨"in.avi", "out.mp4", "medium", "", "heavy", "1.5M", "", ""⟩
        = pre ++ ["-maxrate", "0k", "-bufsize", "0k"] ++ post :=
  match getFFmpegArgs_unparsable_target_size
      ⟨"in.avi", "out.mp4", "medium", "", "heavy", "1.5M", "", ""⟩ (by decide) (by decide) with
  | ⟨pre, post, h1, h2, _⟩ => ⟨pre, post, h1, h2 (by decide)⟩

/-- C10 fails as stated: the text `99999999999999999999x` before the trailing `M` is not a
decimal integer, yet `Atoi` ends with a range error on its twentieth digit and returns the
largest `int`; the bitrate wraps around and the arguments are `-13k` and `-6k`, not `0k`. -/
theorem getFFmpegArgs_unparsable_target_size_overflow :
    overflowJob.targetSize ≠ ""
    ∧ isDecimalInteger (trimSuffix overflowJob.targetSize "M").data = false
    ∧ atoi (trimSuffix overflowJob.targetSize "M") = (2 ^ 63 - 1, some NumError.range)
    ∧ getFFmpegArgs overflowJob =
        ["-i", "in.avi", "-crf", "23", "-maxrate", "-13k", "-bufsize", "-6k", "-y", "out.mp4"]
    ∧ ¬ ∃ pre post,
        getFFmpegArgs overflowJob = pre ++ ["-maxrate", "0k", "-bufsize", "0k"] ++ post := by
  have hargs : getFFmpegArgs overflowJob =
      ["-i", "in.avi", "-crf", "23", "-maxrate", "-13k", "-bufsize", "-6k", "-y", "out.mp4"] := by
    decide
  refine ⟨by decide, by decide, by decide, hargs, ?_⟩
  rintro ⟨pre, post, h⟩
  rw [hargs] at h
  have hinfix : ["-maxrate", "0k", "-bufsize", "0k"] <:+:
      ["-i", "in.avi", "-crf", "23", "-maxrate", "-13k", "-bufsize", "-6k", "-y", "out.mp4"] :=
    ⟨pre, post, h.symm⟩
  revert hinfix
  decide

/-- C5 fails as stated: the engine exits non-zero leaving a partial file at the temporary path,
the operating system refuses `os.Remove(tmpFile)`, whose error the code discards, and the
partial file stays at the temporary path. -/
theorem processFile_engine_failure_leaves_tmp :
    (processFile ⟨false, some "partial", fun _ => true, false⟩ sampleJob sampleFS).1 = false
    ∧ (processFile ⟨false, some "partial", fun _ => true, false⟩ sampleJob sampleFS).2
        (tmpFileOf sampleJob.outputFile) = some "partial" := by
  decide

/-- C5, as the code has it: when the engine exits non-zero, `processFile` fails and leaves the
output path as it was (same content, or still absent); it leaves no file at the temporary path
exactly when the engine left none there or the operating system does not refuse the removal
of the temporary file. -/
theorem processFile_engine_failure (env : Env) (job : ConversionJob) (fs : FileSystem)
    (hexit : env.engineExitZero = false) :
    (processFile env job fs).1 = false
    ∧ (processFile env job fs).2 job.outputFile = fs job.outputFile
    ∧ ((processFile env job fs).2 (tmpFileOf job.outputFile) = none
        ↔ (env.engineLeaves = none ∨ env.removeFails (tmpFileOf job.outputFile) = false)) := by
  have hne : job.outputFile ≠ tmpFileOf job.outputFile := fun h => tmpFileOf_ne _ h.symm
  unfold processFile
  simp only [runEngine_processFile, hexit, Bool.false_eq_true, not_false_eq_true, if_true]
  unfold osRemove
  simp only [setFile_same]
  cases hl : env.engineLeaves with
  | none =>
    simp only [Option.isNone_none, true_or, if_true, setFile_same, true_iff]
    exact ⟨trivial, setFile_other _ _ _ _ hne, trivial⟩
  | some c =>
    cases hr : env.removeFails (tmpFileOf job.outputFile) with
    | true =>
      simp only [Option.isNone_some, Bool.false_eq_true, or_true, if_true, setFile_same]
      refine ⟨trivial, setFile_other _ _ _ _ hne, ?_⟩
      simp
    | false =>
      simp only [Option.isNone_some, Bool.false_eq_true, or_self, if_false, setFile_same]
      refine ⟨trivial, ?_, ?_⟩
      · rw [setFile_other _ _ _ _ hne, setFile_other _ _ _ _ hne]
      · simp

theorem processFile_engine_failure_witness :
    (processFile ⟨false, some "partial", fun _ => false, false⟩ sampleJob sampleFS).1 = false
    ∧ (processFile ⟨false, some "partial", fun _ => false, false⟩ sampleJob sampleFS).2
        sampleJob.outputFile = sampleFS sampleJob.outputFile
    ∧ (processFile ⟨false, some "partial", fun _ => false, false⟩ sampleJob sampleFS).2
        (tmpFileOf sampleJob.outputFile) = none :=
  ⟨(processFile_engine_failure ⟨false, some "partial", fun _ => false, false⟩ sampleJob sampleFS
      rfl).1,
   (processFile_engine_failure ⟨false, some "partial", fun _ => false, false⟩ sampleJob sampleFS
      rfl).2.1,
   (processFile_engine_failure ⟨false, some "partial", fun _ => false, false⟩ sampleJob sampleFS
      rfl).2.2.mpr (Or.inr rfl)⟩

/-- C6 fails as stated: the engine exits zero having written `new` to the temporary path;
when the rename fails the job ends with no file at the output path, and when the removal of
the earlier output `old` is refused the job ends with `old` still at the output path. -/
theorem processFile_commit_failure_no_output :
    ((processFile ⟨true, some "new", fun _ => false, true⟩ sampleJob freshFS).1 = false
      ∧ (processFile ⟨true, some "new", fun _ => false, true⟩ sampleJob freshFS).2
          sampleJob.outputFile = none)
    ∧ ((processFile ⟨true, some "new", fun _ => true, false⟩ sampleJob sampleFS).1 = false
      ∧ (processFile ⟨true, some "new", fun _ => true, false⟩ sampleJob sampleFS).2
          sampleJob.outputFile = some "old") := by
  decide

/-- C6, as the code has it: when the engine exits zero after writing the temporary path and the
commit step does not fail (the removal of a file already at `job.outputFile` is not refused,
the rename does not fail), `processFile` succeeds and ends with the engine's output at
`job.outputFile` and no file at the temporary path, whatever was at `job.outputFile` before.
That end state is reached exactly then, or when the removal of the earlier output is refused,
the earlier output already had the content the engine wrote, and the removal of the temporary
file is not refused. -/
theorem processFile_success (env : Env) (job : ConversionJob) (fs : FileSystem) (c : String)
    (hexit : env.engineExitZero = true) (hleaves : env.engineLeaves = some c) :
    ((((fs job.outputFile).isSome = true → env.removeFails job.outputFile = false)
        ∧ env.renameFails = false) →
      (processFile env job fs).1 = true
      ∧ (processFile env job fs).2 job.outputFile = some c
      ∧ (processFile env job fs).2 (tmpFileOf job.outputFile) = none)
    ∧ (((processFile env job fs).2 job.outputFile = some c
        ∧ (processFile env job fs).2 (tmpFileOf job.outputFile) = none)
      ↔ ((((fs job.outputFile).isSome = true → env.removeFails job.outputFile = false)
            ∧ env.renameFails = false)
          ∨ (fs job.outputFile = some c ∧ env.removeFails job.outputFile = true
              ∧ env.removeFails (tmpFileOf job.outputFile) = false))) := by
  have hne : job.outputFile ≠ tmpFileOf job.outputFile := fun h => tmpFileOf_ne _ h.symm
  unfold processFile
  simp only [runEngine_processFile, hexit, not_true_eq_false, if_false, hleaves]
  unfold osRemove osRename
  simp only [setFile_other _ _ _ _ hne, setFile_same]
  cases hout : fs job.outputFile with
  | none =>
    cases hmv : env.renameFails <;> cases hrt : env.removeFails (tmpFileOf job.outputFile) <;>
      simp [setFile_same, setFile_other _ _ _ _ hne, setFile_other _ _ _ _ hne.symm, hout]
  | some old =>
    cases hrm : env.removeFails job.outputFile <;> cases hmv : env.renameFails <;>
      cases hrt : env.removeFails (tmpFileOf job.outputFile) <;>
      simp [setFile_same, setFile_other _ _ _ _ hne, setFile_other _ _ _ _ hne.symm, hout]

theorem processFile_success_witness :
    (processFile ⟨true, some "new", fun _ => false, false⟩ sampleJob sampleFS).1 = true
    ∧ (processFile ⟨true, some "new", fun _ => false, false⟩ sampleJob sampleFS).2
        sampleJob.outputFile = some "new"
    ∧ (processFile ⟨true, some "new", fun _ => false, false⟩ sampleJob sampleFS).2
        (tmpFileOf sampleJob.outputFile) = none :=
  (processFile_success ⟨true, some "new", fun _ => false, false⟩ sampleJob sampleFS "new"
    rfl rfl).1 ⟨fun _ => rfl, rfl⟩

/-- C7 fails as stated: the engine succeeds, the earlier output `out/x.mp4` is removed, the
rename fails, and the job ends with neither the earlier output nor the new one. -/
theorem processFile_rename_failure_loses_output :
    sampleFS sampleJob.outputFile = some "old"
    ∧ (processFile ⟨true, some "new", fun _ => false, true⟩ sampleJob sampleFS).1 = false
    ∧ (processFile ⟨true, some "new", fun _ => false, true⟩ sampleJob sampleFS).2
        sampleJob.outputFile = none := by
  decide

/-- C7, as the code has it: when the engine succeeds and removing the existing output fails,
the job fails and the file at `job.outputFile` is still there unchanged; when the rename fails,
the job fails and `job.outputFile` is absent, the file that was there having been removed
before the rename.  In both cases no file is left at the temporary path, the operating system
not refusing the removal of the temporary file. -/
theorem processFile_commit_failure (env : Env) (job : ConversionJob) (fs : FileSystem)
    (hexit : env.engineExitZero = true) :
    (∀ old, fs job.outputFile = some old → env.removeFails job.outputFile = true →
        (processFile env job fs).1 = false
        ∧ (processFile env job fs).2 job.outputFile = some old
        ∧ (env.removeFails (tmpFileOf job.outputFile) = false →
            (processFile env job fs).2 (tmpFileOf job.outputFile) = none))
    ∧ ((fs job.outputFile = none ∨ env.removeFails job.outputFile = false) →
        (env.renameFails = true ∨ env.engineLeaves = none) →
        (processFile env job fs).1 = false
        ∧ (processFile env job fs).2 job.outputFile = none
        ∧ (env.removeFails (tmpFileOf job.outputFile) = false →
            (processFile env job fs).2 (tmpFileOf job.outputFile) = none)) := by
  have hne : job.outputFile ≠ tmpFileOf job.outputFile := fun h => tmpFileOf_ne _ h.symm
  refine ⟨?_, ?_⟩
  · intro old hold hrm
    unfold processFile
    simp only [runEngine_processFile, hexit, not_true_eq_false, if_false]
    unfold osRemove
    simp only [hrm, or_true, if_true, setFile_other _ _ _ _ hne, hold,
      Option.isSome_some, Bool.false_eq_true, not_false_eq_true, setFile_same]
    cases hl : env.engineLeaves with
    | none => simp [setFile_same, setFile_other _ _ _ _ hne, hold]
    | some c =>
      cases hc : env.removeFails (tmpFileOf job.outputFile) <;>
        simp [setFile_same, setFile_other _ _ _ _ hne, hold]
  · intro hout hmv
    unfold processFile
    simp only [runEngine_processFile, hexit, not_true_eq_false, if_false]
    unfold osRemove osRename
    simp only [setFile_other _ _ _ _ hne, setFile_same]
    cases hl : env.engineLeaves with
    | none =>
      cases hf : fs job.outputFile with
      | none => simp [setFile_same, setFile_other _ _ _ _ hne, setFile_other _ _ _ _ hne.symm, hf]
      | some old =>
        have hrm : env.removeFails job.outputFile = false := by
          rcases hout with h | h
          · rw [hf] at h; cases h
          · exact h
        simp [setFile_same, setFile_other _ _ _ _ hne, setFile_other _ _ _ _ hne.symm, hf, hrm]
    | some c =>
      have hren : env.renameFails = true := by
        rcases hmv with h | h
        · exact h
        · rw [hl] at h; cases h
      cases hf : fs job.outputFile with
      | none =>
        cases hc : env.removeFails (tmpFileOf job.outputFile) <;>
          simp [setFile_same, setFile_other _ _ _ _ hne, setFile_other _ _ _ _ hne.symm, hf,
            hren]
      | some old =>
        have hrm : env.removeFails job.outputFile = false := by
          rcases hout with h | h
          · rw [hf] at h; cases h
          · exact h
        cases hc : env.removeFails (tmpFileOf job.outputFile) <;>
          simp [setFile_same, setFile_other _ _ _ _ hne, setFile_other _ _ _ _ hne.symm, hf,
            hrm, hren]

theorem processFile_commit_failure_witness :
    ((processFile ⟨true, some "new", fun p => decide (p = "out/x.mp4"), false⟩ sampleJob sampleFS).1
        = false
      ∧ (processFile ⟨true, some "new", fun p => decide (p = "out/x.mp4"), false⟩ sampleJob
          sampleFS).2 sampleJob.outputFile = some "old"
      ∧ (processFile ⟨true, some "new", fun p => decide (p = "out/x.mp4"), false⟩ sampleJob
          sampleFS).2 (tmpFileOf sampleJob.outputFile) = none)
    ∧ ((processFile ⟨true, some "new", fun _ => false, true⟩ sampleJob sampleFS).1 = false
      ∧ (processFile ⟨true, some "new", fun _ => false, true⟩ sampleJob sampleFS).2
          sampleJob.outputFile = none
      ∧ (processFile ⟨true, some "new", fun _ => false, true⟩ sampleJob sampleFS).2
          (tmpFileOf sampleJob.outputFile) = none) :=
  ⟨⟨((processFile_commit_failure ⟨true, some "new", fun p => decide (p = "out/x.mp4"), false⟩
        sampleJob sampleFS rfl).1 "old" (by decide) (by decide)).1,
    ((processFile_commit_failure ⟨true, some "new", fun p => decide (p = "out/x.mp4"), false⟩
        sampleJob sampleFS rfl).1 "old" (by decide) (by decide)).2.1,
    ((processFile_commit_failure ⟨true, some "new", fun p => decide (p = "out/x.mp4"), false⟩
        sampleJob sampleFS rfl).1 "old" (by decide) (by decide)).2.2 (by decide)⟩,
   ⟨((processFile_commit_failure ⟨true, some "new", fun _ => false, true⟩
        sampleJob sampleFS rfl).2 (Or.inr rfl) (Or.inl rfl)).1,
    ((processFile_commit_failure ⟨true, some "new", fun _ => false, true⟩
        sampleJob sampleFS rfl).2 (Or.inr rfl) (Or.inl rfl)).2.1,
    ((processFile_commit_failure ⟨true, some "new", fun _ => false, true⟩
        sampleJob sampleFS rfl).2 (Or.inr rfl) (Or.inl rfl)).2.2 rfl⟩⟩

/-- C8 fails as stated: the distinct existing inputs `a/x.avi` and `b/x.mkv` get the same
output path `out/x.mp4` and the same temporary path. -/
theorem buildJobs_paths_clash :
    clashOptions.inputFiles.Nodup
    ∧ (∀ i ∈ clashOptions.inputFiles, allFound i = StatOutcome.found)
    ∧ outputPaths (buildJobs clashOptions allFound) = ["out/x.mp4", "out/x.mp4"]
    ∧ tmpPaths (buildJobs clashOptions allFound) = ["out/tmp_x.mp4", "out/tmp_x.mp4"]
    ∧ ¬ (outputPaths (buildJobs clashOptions allFound)
          ++ tmpPaths (buildJobs clashOptions allFound)).Nodup := by
  decide

/-- C8, as the code has it: the temporary path of a job is never its own output path, and two
inputs with the same base name without extension get the same output path; when, for the
inputs that `convert` does not skip, every output file name (base name without extension, a
dot, the format) has no `/` and is neither `.` nor `..`, the base names without extension are
pairwise distinct, and none of them is `tmp_` followed by another, then across the job list
the output paths and the temporary paths are pairwise distinct. -/
theorem buildJobs_paths_exclusive (opts : Options) (stat : String → StatOutcome) :
    (∀ job : ConversionJob, tmpFileOf job.outputFile ≠ job.outputFile)
    ∧ (∀ i j : String, baseFileName i = baseFileName j →
        outputFileOf opts i = outputFileOf opts j)
    ∧ ((∀ i ∈ keptInputs opts stat, '/' ∉ (outputName opts i).data
          ∧ outputName opts i ≠ "." ∧ outputName opts i ≠ "..") →
       ((keptInputs opts stat).map baseFileName).Nodup →
       (∀ i ∈ keptInputs opts stat, ∀ j ∈ keptInputs opts stat,
          "tmp_" ++ baseFileName i ≠ baseFileName j) →
       (outputPaths (buildJobs opts stat) ++ tmpPaths (buildJobs opts stat)).Nodup) := by
  refine ⟨fun job => tmpFileOf_ne job.outputFile, ?_, ?_⟩
  · intro i j h
    simp only [outputFileOf, outputName, h]
  intro hname hstems htmp
  have hplain : ∀ i ∈ keptInputs opts stat,
      isPlainElem (baseFileName i ++ "." ++ opts.outputFormat).data := by
    intro i hi
    obtain ⟨h0, h1, h2⟩ := hname i hi
    exact isPlainElem_of_name _ _ h0 h1 h2
  have hbase : ∀ i ∈ keptInputs opts stat,
      filepathBase (outputFileOf opts i) = baseFileName i ++ "." ++ opts.outputFormat :=
    fun i hi => filepathBase_join_plain _ _ (hplain i hi)
  have hbaseTmp : ∀ i ∈ keptInputs opts stat,
      filepathBase (tmpFileOf (outputFileOf opts i))
        = "tmp_" ++ (baseFileName i ++ "." ++ opts.outputFormat) :=
    fun i hi => filepathBase_tmpFileOf _ _ (hbase i hi) (hplain i hi)
  have e1 : (outputPaths (buildJobs opts stat)).map filepathBase
      = (keptInputs opts stat).map (fun i => baseFileName i ++ "." ++ opts.outputFormat) := by
    rw [outputPaths_buildJobs, List.map_map]
    exact List.map_congr_left (fun i hi => hbase i hi)
  have e2 : (tmpPaths (buildJobs opts stat)).map filepathBase
      = (keptInputs opts stat).map
          (fun i => "tmp_" ++ (baseFileName i ++ "." ++ opts.outputFormat)) := by
    rw [tmpPaths_eq, outputPaths_buildJobs, List.map_map, List.map_map]
    exact List.map_congr_left (fun i hi => hbaseTmp i hi)
  apply List.Nodup.of_map filepathBase
  rw [List.map_append, e1, e2]
  have hnames : ((keptInputs opts stat).map
      (fun i => baseFileName i ++ "." ++ opts.outputFormat)).Nodup := by
    have := List.Nodup.map (f := fun s : String => s ++ "." ++ opts.outputFormat)
      (fun a b h => by
        have h1 : a ++ ("." ++ opts.outputFormat) = b ++ ("." ++ opts.outputFormat) := by
          simpa [String.append_assoc] using h
        exact string_append_right_cancel a b _ h1) hstems
    simpa [List.map_map] using this
  have htmps : ((keptInputs opts stat).map
      (fun i => "tmp_" ++ (baseFileName i ++ "." ++ opts.outputFormat))).Nodup := by
    have := List.Nodup.map (f := fun s : String => "tmp_" ++ s)
      (fun a b h => string_append_left_cancel a b _ h) hnames
    simpa [List.map_map] using this
  rw [List.nodup_append]
  refine ⟨hnames, htmps, ?_⟩
  intro a ha hb
  obtain ⟨i, hi, rfl⟩ := List.mem_map.mp ha
  obtain ⟨j, hj, hji⟩ := List.mem_map.mp hb
  apply htmp j hj i hi
  have h1 : ("tmp_" ++ baseFileName j) ++ ("." ++ opts.outputFormat)
      = baseFileName i ++ ("." ++ opts.outputFormat) := by
    simpa [String.append_assoc] using hji
  exact string_append_right_cancel _ _ _ h1

theorem buildJobs_paths_exclusive_witness :
    (outputPaths (buildJobs ⟨["a/x.avi", "b/y.mkv"], "mp4", "medium", "", true, "out", "", "", "",
        ""⟩ allFound)
      ++ tmpPaths (buildJobs ⟨["a/x.avi", "b/y.mkv"], "mp4", "medium", "", true, "out", "", "", "",
        ""⟩ allFound)).Nodup :=
  (buildJobs_paths_exclusive ⟨["a/x.avi", "b/y.mkv"], "mp4", "medium", "", true, "out", "", "", "",
      ""⟩ allFound).2.2 (by decide) (by decide) (by decide)

/-- C9 fails on the code: with no output directory the output of `/videos/a.avi` is `a.mp4`,
in the working directory `.` and not in the directory `/videos` of the input; its file name is
the input's base name with the extension replaced. -/
theorem buildJobs_no_outputDir_leaves_input_dir :
    noOutputDirOptions.outputDir = ""
    ∧ outputPaths (buildJobs noOutputDirOptions allFound) = ["a.mp4"]
    ∧ filepathDir "a.mp4" = "."
    ∧ filepathDir "/videos/a.avi" = "/videos"
    ∧ filepathBase "a.mp4" = baseFileName "/videos/a.avi" ++ "." ++ "mp4" := by
  decide

end VideoConverter
